import Mathlib

/-!
# utime: a verification development

A shallow embedding of `utime.go`, a command-line tool that prints the current
time, the current Unix epoch, the current Swatch Internet Time ("beats"), or
converts an epoch / a beat given on the command line to local time.

The program is modelled as a function from its environment (argument list,
clock readings, local time zone) to a `Run`: what was written to standard
output and standard error, the exit code, and which of the program's functions
were entered.  The standard-library services the program calls (`flag`,
`strconv`, `strings`, `time`, `fmt`, `float64` arithmetic) are modelled next to
the functions that call them.
-/

namespace Utime

/-! ## Go integer arithmetic -/

/-- Go's `/` on integers: the quotient truncated toward zero. -/
def goDiv (a b : Int) : Int := Int.tdiv a b

/-- Go's `%` on integers: the remainder has the sign of the dividend. -/
def goMod (a b : Int) : Int := Int.tmod a b

/-- The value of an integer expression in `int64`: two's-complement
wrap-around into `[-2^63, 2^63)`. -/
def wrapInt64 (x : Int) : Int := (x + 2 ^ 63) % 2 ^ 64 - 2 ^ 63

/-! ## Decimal rendering (`fmt`, `time.appendInt`) -/

/-- The decimal digits of a natural number, most significant first. -/
def natDigits (n : Nat) : List Char := Nat.toDigits 10 n

/-- Left-pad a digit string with `'0'` up to width `w`. -/
def zeroPad (w : Nat) (cs : List Char) : List Char :=
  List.replicate (w - cs.length) '0' ++ cs

/-- The `%d` verb (also `fmt.Println` of an integer). -/
def fmtInt (x : Int) : List Char :=
  (if x < 0 then ['-'] else []) ++ natDigits x.natAbs

/-- The `%+d` verb: the sign is always written. -/
def fmtIntPlus (x : Int) : List Char :=
  (if x < 0 then ['-'] else ['+']) ++ natDigits x.natAbs

/-- The `appendInt` helper of package `time`: a minus sign for a negative
value, then the magnitude zero-padded to `width` digits. -/
def appendInt (x : Int) (width : Nat) : List Char :=
  (if x < 0 then ['-'] else []) ++ zeroPad width (natDigits x.natAbs)

/-! ## binary64 arithmetic

A finite `float64` is `(-1)^neg * mant * 2^exp`.  Results of operations are
normalised (`2^52 ≤ mant < 2^53`, or `mant = 0`).  The exponent range of
binary64 is not modelled: every value this program computes is zero or has
magnitude between `2^-7` and `2^47`. -/

/-- A finite binary64 value `(-1)^neg * mant * 2^exp`. -/
structure F64 where
  neg : Bool
  mant : Nat
  exp : Int
deriving DecidableEq, Repr

/-- The numerator of `2^k` as a fraction of naturals. -/
def pow2Num (k : Int) : Nat := 2 ^ k.toNat

/-- The denominator of `2^k` as a fraction of naturals. -/
def pow2Den (k : Int) : Nat := 2 ^ (-k).toNat

/-- Round the fraction `n / d` to the nearest natural, ties to even. -/
def roundHalfEven (n d : Nat) : Nat :=
  let q := n / d
  let r := n % d
  if 2 * r < d then q
  else if d < 2 * r then q + 1
  else if q % 2 = 0 then q else q + 1

/-- Number of binary digits of `n`, with `fuel` bounding the recursion; the
digits are counted 32 or 8 at a time while that many remain. -/
def bitLenAux : Nat → Nat → Nat
  | 0, _ => 0
  | fuel + 1, n =>
    if n = 0 then 0
    else if 2 ^ 32 ≤ n then bitLenAux fuel (n / 2 ^ 32) + 32
    else if 2 ^ 8 ≤ n then bitLenAux fuel (n / 2 ^ 8) + 8
    else bitLenAux fuel (n / 2) + 1

/-- Number of binary digits of `n` (`0` for `0`). -/
def bitLen (n : Nat) : Nat := bitLenAux n n

/-- The binade of the positive fraction `n / d`: the `e` with
`2^e ≤ n / d < 2^(e+1)`. -/
def floorLog2 (n d : Nat) : Int :=
  let e0 : Int := (bitLen n : Int) - (bitLen d : Int)
  if d * pow2Num e0 ≤ n * pow2Den e0 then e0 else e0 - 1

/-- Round-to-nearest, ties-to-even, of the fraction `n / d` (with sign `neg`)
to a 53-bit significand: the IEEE 754 default rounding of binary64. -/
def roundToF64 (neg : Bool) (n d : Nat) : F64 :=
  if n = 0 then ⟨neg, 0, 0⟩
  else
    let k := floorLog2 n d - 52
    let m := roundHalfEven (n * pow2Den k) (d * pow2Num k)
    if m = 2 ^ 53 then ⟨neg, 2 ^ 52, k + 1⟩ else ⟨neg, m, k⟩

/-- Conversion `float64(i)` of an integer. -/
def F64.ofInt (i : Int) : F64 := roundToF64 (decide (i < 0)) i.natAbs 1

/-- A decimal constant `n / d` converted to `float64`. -/
def F64.ofFrac (n d : Nat) : F64 := roundToF64 false n d

/-- The product `a * b` in `float64`. -/
def F64.mul (a b : F64) : F64 :=
  roundToF64 (a.neg != b.neg)
    (a.mant * b.mant * pow2Num (a.exp + b.exp)) (pow2Den (a.exp + b.exp))

/-- The quotient `a / b` in `float64`, for a non-zero divisor. -/
def F64.div (a b : F64) : F64 :=
  roundToF64 (a.neg != b.neg)
    (a.mant * pow2Num (a.exp - b.exp)) (b.mant * pow2Den (a.exp - b.exp))

/-- Conversion of a `float64` to `int64` (as in `time.Duration(f)`): the
fractional part is discarded. -/
def F64.toInt64 (a : F64) : Int :=
  let q : Int := ((a.mant * pow2Num a.exp / pow2Den a.exp : Nat) : Int)
  if a.neg then -q else q

/-- The exact value of a binary64 as a rational number. -/
def F64.toRat (a : F64) : ℚ :=
  (if a.neg then -1 else 1) * (a.mant : ℚ) * (pow2Num a.exp : ℚ) / (pow2Den a.exp : ℚ)

/-- The number of hundredths that `strconv` prints for `|a|` with two
fractional digits: the exact binary value rounded half-to-even. -/
def F64.hundredths (a : F64) : Nat :=
  roundHalfEven (a.mant * 100 * pow2Num a.exp) (pow2Den a.exp)

/-- The `%06.2f` verb: two fractional digits, zero-padded to width six, the
sign (if any) written before the padding. -/
def fmtF062 (a : F64) : List Char :=
  let h := a.hundredths
  let body := natDigits (h / 100) ++ ['.'] ++ zeroPad 2 (natDigits (h % 100))
  if a.neg then '-' :: zeroPad 5 body else zeroPad 6 body

/-! ## Calendar (`time`)

An instant is a count of nanoseconds since the Unix epoch.  The calendar of
package `time` is the proleptic Gregorian calendar; the two conversions below
are the ones behind `Time.Date`/`Time.Clock` and `time.Date`. -/

/-- Nanoseconds per second (`time.Second`). -/
def nsPerSec : Int := 1000000000

/-- Seconds since the epoch of an instant (`Time.Unix`). -/
def unixSec (t : Int) : Int := t / nsPerSec

/-- Nanosecond within the second of an instant (`Time.Nanosecond`). -/
def nanoOf (t : Int) : Int := t % nsPerSec

/-- Year, month and day of the day number `z` (days since 1970-01-01). -/
def civilFromDays (z : Int) : Int × Int × Int :=
  let z1 := z + 719468
  let era := z1 / 146097
  let doe := z1 % 146097
  let yoe := (doe - doe / 1460 + doe / 36524 - doe / 146096) / 365
  let doy := doe - (365 * yoe + yoe / 4 - yoe / 100)
  let mp := (5 * doy + 2) / 153
  let d := doy - (153 * mp + 2) / 5 + 1
  let m := if mp < 10 then mp + 3 else mp - 9
  let y := yoe + era * 400
  (if m ≤ 2 then y + 1 else y, m, d)

/-- Day number (days since 1970-01-01) of a calendar date. -/
def daysFromCivil (y m d : Int) : Int :=
  let y1 := if m ≤ 2 then y - 1 else y
  let era := y1 / 400
  let yoe := y1 % 400
  let mp := if 2 < m then m - 3 else m + 9
  let doy := (153 * mp + 2) / 5 + d - 1
  let doe := yoe * 365 + yoe / 4 - yoe / 100 + doy
  era * 146097 + doe - 719468

/-- The broken-down presentation of an instant in a zone. -/
structure Civil where
  year : Int
  month : Int
  day : Int
  hour : Int
  minute : Int
  second : Int
  nano : Int
  zoneName : String
  zoneOffset : Int
deriving DecidableEq, Repr

/-- Break the instant `t` down in the zone with the given abbreviation and
offset (seconds east of UTC). -/
def civilOf (t : Int) (zoneName : String) (zoneOffset : Int) : Civil :=
  let ls := unixSec t + zoneOffset
  let ymd := civilFromDays (ls / 86400)
  let sod := ls % 86400
  { year := ymd.1, month := ymd.2.1, day := ymd.2.2,
    hour := sod / 3600, minute := sod % 3600 / 60, second := sod % 60,
    nano := nanoOf t, zoneName := zoneName, zoneOffset := zoneOffset }

/-- The epoch second denoted by broken-down fields read in their own zone
offset (the computation of `time.Date` for a fixed offset). -/
def Civil.toUnix (c : Civil) : Int :=
  daysFromCivil c.year c.month c.day * 86400
    + c.hour * 3600 + c.minute * 60 + c.second - c.zoneOffset

/-- The layout element `MST`: the zone abbreviation, or the numeric offset
`±hhmm` when the zone has no abbreviation. -/
def fmtZone (c : Civil) : List Char :=
  if c.zoneName ≠ "" then c.zoneName.data
  else
    let zone := goDiv c.zoneOffset 60
    let z := if zone < 0 then -zone else zone
    (if zone < 0 then ['-'] else ['+']) ++ appendInt (goDiv z 60) 2 ++ appendInt (goMod z 60) 2

/-- The layout `2006-01-02`. -/
def fmtDate (c : Civil) : List Char :=
  appendInt c.year 4 ++ ['-'] ++ appendInt c.month 2 ++ ['-'] ++ appendInt c.day 2

/-- The layout `15:04:05`. -/
def fmtClock (c : Civil) : List Char :=
  appendInt c.hour 2 ++ [':'] ++ appendInt c.minute 2 ++ [':'] ++ appendInt c.second 2

/-- The layout `15:04:05.000`: the clock with milliseconds (further digits
are dropped). -/
def fmtClockMillis (c : Civil) : List Char :=
  fmtClock c ++ ['.'] ++ zeroPad 3 (natDigits (c.nano / 1000000).toNat)

/-- The layout `2006-01-02 15:04:05 MST`. -/
def fmtDateTimeZone (c : Civil) : List Char :=
  fmtDate c ++ [' '] ++ fmtClock c ++ [' '] ++ fmtZone c

/-! ## Integer parsing (`strconv`) -/

/-- The two kinds of `strconv.NumError`. -/
inductive NumError where
  | syntax_
  | range
deriving DecidableEq, Repr

/-- Value of a decimal digit character. -/
def digitVal (c : Char) : Nat := c.toNat - 48

/-- Whether a character is one of `0`..`9`. -/
def isDecDigit (c : Char) : Bool := decide (48 ≤ c.toNat) && decide (c.toNat ≤ 57)

/-- The digit loop of `strconv.ParseUint(s, 10, 64)`, with the accumulator
`n` a `uint64`. -/
def parseUintLoop : List Char → Nat → Except NumError Nat
  | [], n => .ok n
  | c :: cs, n =>
    if !isDecDigit c then .error .syntax_
    else if n ≥ 18446744073709551615 / 10 + 1 then .error .range
    else
      let n10 := n * 10 % 2 ^ 64
      let n1 := (n10 + digitVal c) % 2 ^ 64
      if n1 < n10 || n1 > 18446744073709551615 then .error .range
      else parseUintLoop cs n1

/-- The function `strconv.ParseUint(s, 10, 64)`. -/
def parseUint (s : List Char) : Except NumError Nat :=
  if s = [] then .error .syntax_ else parseUintLoop s 0

/-- The function `strconv.ParseInt(s, 10, 64)` (also what `ParseInt(s, 10, 0)`
is where `int` has 64 bits). -/
def parseInt (s : List Char) : Except NumError Int :=
  match s with
  | [] => .error .syntax_
  | c :: cs =>
    let neg := c = '-'
    let body := if c = '+' ∨ c = '-' then cs else s
    match parseUint body with
    | .error .syntax_ => .error .syntax_
    | r =>
      let un : Nat := match r with
        | .ok u => u
        | .error _ => 18446744073709551615
      let cutoff : Nat := 2 ^ 63
      if !neg && un ≥ cutoff then .error .range
      else if neg && un > cutoff then .error .range
      else .ok (if neg then -(un : Int) else (un : Int))

/-- The digit loop of the fast path of `strconv.Atoi`. -/
def atoiFastLoop : List Char → Int → Except NumError Int
  | [], n => .ok n
  | c :: cs, n =>
    if !isDecDigit c then .error .syntax_ else atoiFastLoop cs (n * 10 + digitVal c)

/-- Length of a string in bytes (Go's `len`). -/
def byteLen (s : List Char) : Nat := (s.map Char.utf8Size).sum

/-- The function `strconv.Atoi` where `int` has 64 bits: a fast path for
inputs shorter than 19 bytes, `ParseInt(s, 10, 0)` otherwise. -/
def atoi (s : List Char) : Except NumError Int :=
  if 0 < byteLen s ∧ byteLen s < 19 then
    match s with
    | [] => .error .syntax_
    | c :: cs =>
      let body := if c = '-' ∨ c = '+' then cs else s
      if (c = '-' ∨ c = '+') ∧ cs = [] then .error .syntax_
      else
        match atoiFastLoop body 0 with
        | .error e => .error e
        | .ok n => .ok (if c = '-' then -n else n)
  else parseInt s

/-! ## Prefix tests (`strings`) -/

/-- The call `strings.HasPrefix(s, "@")`. -/
def hasPrefixAt (s : List Char) : Bool :=
  match s with
  | c :: _ => c = '@'
  | [] => false

/-- The call `strings.TrimPrefix(s, "@")`. -/
def trimPrefixAt (s : List Char) : List Char :=
  match s with
  | c :: cs => if c = '@' then cs else s
  | [] => []

/-! ## The environment and the observable behaviour of a run -/

/-- What the program reads from its surroundings. -/
structure Env where
  /-- The value of `os.Args[0]`. -/
  progName : String
  /-- The `k`-th reading of `time.Now()`, in nanoseconds since the epoch. -/
  clock : Nat → Int
  /-- The local zone in force at an epoch second: abbreviation and offset in
  seconds east of UTC. -/
  zone : Int → String × Int
  /-- The name of the local `time.Location`. -/
  locName : String
  /-- The `%q` rendering of a string (used by package `flag` in one of its
  diagnostics). -/
  quote : String → String

/-- The functions of the program that a run can enter. -/
inductive Call where
  | usage
  | printCurrentTimes
  | printBeatTime
  | printEpochTime
  | convertEpochToLocal (epochStr : String)
  | convertBeatToLocalRange (beatStr : String)
deriving DecidableEq, Repr

/-- Whether a call is one of the five actions of the dispatcher. -/
def Call.isAction : Call → Bool
  | .usage => false
  | _ => true

/-- The observable behaviour of one run: the writes to standard output and to
standard error in order, the exit code, and the functions entered in order. -/
structure Run where
  stdout : List String
  stderr : List String
  exitCode : Nat
  calls : List Call
deriving DecidableEq, Repr

/-- Write to standard output, then continue as `k`. -/
def outWrite (s : String) (k : Run) : Run := { k with stdout := s :: k.stdout }

/-- Write to standard error, then continue as `k`. -/
def errWrite (s : String) (k : Run) : Run := { k with stderr := s :: k.stderr }

/-- Enter a function of the program, then continue as `k`. -/
def enter (c : Call) (k : Run) : Run := { k with calls := c :: k.calls }

/-- Return from `main`: exit code 0. -/
def finish : Run := ⟨[], [], 0, []⟩

/-- The call `os.Exit(code)`. -/
def exitWith (code : Nat) : Run := ⟨[], [], code, []⟩

/-! ## The program -/

/-- What `flag.PrintDefaults` writes for the three flags `main` defines, in
lexical order of their names. -/
def printDefaultsText : List String :=
  [ "  -beat\n    \tPrint the current Swatch Internet Time (@beats).\n",
    "  -epoch\n    \tPrint the current Unix epoch time.\n",
    "  -h\tShow help message.\n" ]

/-- Everything `usage` writes to standard error. -/
def usageText (env : Env) : List String :=
  [ "Usage: " ++ env.progName ++ " [-epoch] [-beat] [@<beat_time> | <epoch_time>]\n\n",
    "Displays current UTC and local time information by default.\n\n",
    "Options:\n",
    "  -epoch       Print the current Unix epoch time.\n",
    "  -beat        Print the current Swatch Internet Time (@beats).\n",
    "  <epoch_time> Convert the given Unix epoch time (integer seconds) to local time.\n",
    "  @<beat_time> Convert the given Swatch Internet Time (0-999) to a local time range for the current day.\n",
    "  -h, --help   Show this help message.\n" ] ++ printDefaultsText

/-- The function `usage`: the usage text on standard error, then `os.Exit(1)`. -/
def usage (env : Env) : Run :=
  enter .usage ((usageText env).foldr errWrite (exitWith 1))

/-- The function `printCurrentTimes`. -/
def printCurrentTimes (env : Env) : Run :=
  let utcNow := env.clock 0
  let localNow := env.clock 1
  let z := env.zone (unixSec localNow)
  let zoneName := z.1
  let zoneOffset := z.2
  let offsetHours := goDiv zoneOffset 3600
  enter .printCurrentTimes <|
  outWrite "Current Time Information:\n" <|
  outWrite "==============================\n" <|
  outWrite ("UTC Time      : " ++ String.mk (fmtDateTimeZone (civilOf utcNow "UTC" 0)) ++ "\n") <|
  outWrite ("Local Time    : "
    ++ String.mk (fmtDateTimeZone (civilOf localNow zoneName zoneOffset)) ++ "\n") <|
  outWrite ("Time Zone     : " ++ zoneName ++ " (UTC" ++ String.mk (fmtIntPlus offsetHours) ++ ")\n") <|
  outWrite ("Location      : " ++ env.locName ++ "\n") <|
  outWrite "==============================\n" <|
  finish

/-- The variable `secondsSinceMidnightBMT` of `printBeatTime`; the sum
`utcSeconds + 3600` is computed in `int64`. -/
def secondsSinceMidnightBMT (utcSeconds : Int) : Int :=
  goMod (wrapInt64 (utcSeconds + 3600)) 86400

/-- The variable `beatTime` of `printBeatTime`. -/
def beatTime (utcSeconds : Int) : F64 :=
  F64.div (F64.mul (F64.ofInt (secondsSinceMidnightBMT utcSeconds)) (F64.ofInt 1000))
    (F64.ofInt 86400)

/-- The line `printBeatTime` prints when the clock shows `utcSeconds`. -/
def beatLine (utcSeconds : Int) : String :=
  "@" ++ String.mk (fmtF062 (beatTime utcSeconds)) ++ "\n"

/-- The function `printBeatTime`. -/
def printBeatTime (env : Env) : Run :=
  let utcSeconds := unixSec (env.clock 0)
  enter .printBeatTime <| outWrite (beatLine utcSeconds) <| finish

/-- The function `printEpochTime`. -/
def printEpochTime (env : Env) : Run :=
  enter .printEpochTime <|
  outWrite (String.mk (fmtInt (unixSec (env.clock 0))) ++ "\n") <| finish

/-- The broken-down local time of the epoch second `epoch`
(`time.Unix(epoch, 0).UTC().Local()`). -/
def localCivil (env : Env) (epoch : Int) : Civil :=
  civilOf (epoch * nsPerSec) (env.zone epoch).1 (env.zone epoch).2

/-- The message of `convertEpochToLocal` for an input that is not an integer. -/
def invalidEpochMsg (epochStr : String) : String :=
  "Error: Invalid epoch time '" ++ epochStr ++ "'. Please provide an integer.\n"

/-- The function `convertEpochToLocal`. -/
def convertEpochToLocal (env : Env) (epochStr : String) : Run :=
  enter (.convertEpochToLocal epochStr) <|
  match parseInt epochStr.data with
  | .error _ => errWrite (invalidEpochMsg epochStr) (usage env)
  | .ok epoch =>
    outWrite (String.mk (fmtDateTimeZone (localCivil env epoch)) ++ "\n") <| finish

/-- The duration `time.Duration(float64(k) * 86.4 * float64(time.Second))`:
the offset from midnight, in nanoseconds, at which beat `k` starts. -/
def beatOffsetNs (k : Int) : Int :=
  F64.toInt64 (F64.mul (F64.mul (F64.ofInt k) (F64.ofFrac 864 10)) (F64.ofInt 1000000000))

/-- The instant `midnightBMT` of `convertBeatToLocalRange`: midnight, in the
fixed zone UTC+1, of the BMT calendar day that contains `now`. -/
def midnightBMT (now : Int) : Int :=
  let nowBMT := civilOf now "BMT" 3600
  Civil.toUnix { nowBMT with hour := 0, minute := 0, second := 0, nano := 0 } * nsPerSec

/-- The instants `startTimeBMT` and `endTimeBMT` of
`convertBeatToLocalRange`. -/
def beatRange (now : Int) (beat : Int) : Int × Int :=
  (midnightBMT now + beatOffsetNs beat, midnightBMT now + beatOffsetNs (beat + 1))

/-- The message of `convertBeatToLocalRange` for an invalid beat. -/
def invalidBeatMsg (beatStr : String) : String :=
  "Error: Invalid beat time '" ++ beatStr ++ "'. Must be '@' followed by 0-999.\n"

/-- The validation at the head of `convertBeatToLocalRange`: the beat, if the
input is accepted. -/
def parseBeat (beatStr : String) : Option Int :=
  match atoi (trimPrefixAt beatStr.data) with
  | .error _ => none
  | .ok beat => if beat < 0 ∨ beat > 999 then none else some beat

/-- The instant `t` broken down in the local zone (`t.In(localLoc)`). -/
def inLocal (env : Env) (t : Int) : Civil :=
  civilOf t (env.zone (unixSec t)).1 (env.zone (unixSec t)).2

/-- The function `convertBeatToLocalRange`. -/
def convertBeatToLocalRange (env : Env) (beatStr : String) : Run :=
  enter (.convertBeatToLocalRange beatStr) <|
  match parseBeat beatStr with
  | none => errWrite (invalidBeatMsg beatStr) (usage env)
  | some beat =>
    let r := beatRange (env.clock 1) beat
    let startTimeLocal := inLocal env r.1
    let endTimeLocal := inLocal env r.2
    outWrite ("@" ++ String.mk (fmtInt beat) ++ " corresponds to the time range "
      ++ String.mk (fmtClockMillis startTimeLocal) ++ " - "
      ++ String.mk (fmtClockMillis endTimeLocal) ++ " "
      ++ String.mk (fmtZone startTimeLocal) ++ " (on "
      ++ String.mk (fmtDate startTimeLocal) ++ ")\n") <| finish

/-! ### Command-line parsing (`flag`) -/

/-- The values of the three flags and the remaining arguments after
`flag.Parse()`. -/
structure Flags where
  epochFlag : Bool
  beatFlag : Bool
  helpFlag : Bool
  args : List String
deriving DecidableEq, Repr

/-- How `flag.Parse()` ends. -/
inductive FlagOutcome where
  /-- Parsing succeeded. -/
  | parsed (f : Flags)
  /-- A diagnostic was written and the usage function called. -/
  | failed (msg : String)
  /-- An undefined `-help` was met: the usage function is called. -/
  | helpWanted
deriving DecidableEq, Repr

/-- The function `strconv.ParseBool`. -/
def parseBool (v : String) : Option Bool :=
  if v = "1" ∨ v = "t" ∨ v = "T" ∨ v = "true" ∨ v = "TRUE" ∨ v = "True" then some true
  else if v = "0" ∨ v = "f" ∨ v = "F" ∨ v = "false" ∨ v = "FALSE" ∨ v = "False" then some false
  else none

/-- The value a boolean flag receives: `true` when written bare, the parsed
value when written `-name=value`. -/
def flagValue (value : Option String) : Option Bool :=
  match value with
  | none => some true
  | some v => parseBool v

/-- The first test of `FlagSet.parseOne`: whether an argument is taken for a
flag (at least two bytes, the first a minus sign). -/
def isFlagToken (s : String) : Bool :=
  match s.data with
  | '-' :: _ :: _ => true
  | _ => false

/-- How one call of `FlagSet.parseOne` ends. -/
inductive ParseStep where
  /-- A flag was consumed; the flag values are now `st`. -/
  | seen (st : Flags)
  /-- The flags end here; `args` are the remaining arguments. -/
  | stop (args : List String)
  /-- A diagnostic was written and the usage function called. -/
  | failed (msg : String)
  /-- An undefined `-help` was met: the usage function is called. -/
  | helpWanted
deriving DecidableEq, Repr

/-- The function `FlagSet.parseOne` for the flags `epoch`, `beat` and `h`
that `main` defines, applied to the first remaining argument `s`. -/
def parseOne (env : Env) (st : Flags) (s : String) (rest : List String) : ParseStep :=
  match s.data with
  | '-' :: c :: cs =>
    if c = '-' ∧ cs = [] then .stop rest
    else
      match (if c = '-' then cs else c :: cs) with
      | [] => .failed ("bad flag syntax: " ++ s)
      | n0 :: ns =>
        if n0 = '-' ∨ n0 = '=' then .failed ("bad flag syntax: " ++ s)
        else
          let name := String.mk (n0 :: ns.takeWhile (fun x => x ≠ '='))
          let value : Option String :=
            match ns.dropWhile (fun x => x ≠ '=') with
            | [] => none
            | _ :: v => some (String.mk v)
          if name = "epoch" ∨ name = "beat" ∨ name = "h" then
            match flagValue value with
            | none =>
              .failed ("invalid boolean value " ++ env.quote (value.getD "")
                ++ " for -" ++ name ++ ": parse error")
            | some b =>
              if name = "epoch" then .seen { st with epochFlag := b }
              else if name = "beat" then .seen { st with beatFlag := b }
              else .seen { st with helpFlag := b }
          else if name = "help" then .helpWanted
          else .failed ("flag provided but not defined: -" ++ name)
  | _ => .stop (s :: rest)

/-- The loop of `flag.Parse()`: `parseOne` repeated until the flags end or a
call fails. -/
def flagParse (env : Env) : Flags → List String → FlagOutcome
  | st, [] => .parsed { st with args := [] }
  | st, s :: rest =>
    match parseOne env st s rest with
    | .seen st1 => flagParse env st1 rest
    | .stop args => .parsed { st with args := args }
    | .failed msg => .failed msg
    | .helpWanted => .helpWanted

/-- The message for conflicting flags and arguments. -/
def combineMsg : String :=
  "Error: Cannot combine -epoch or -beat flags with each other or with other arguments.\n"

/-- The message for more than one positional argument. -/
def tooManyMsg : String := "Error: Too many arguments.\n"

/-- The body of `main` after `flag.Parse()`: help, validation, dispatch. -/
def mainBody (env : Env) (f : Flags) : Run :=
  if f.helpFlag then usage env
  else if (f.epochFlag && f.beatFlag) || ((f.epochFlag || f.beatFlag) && decide (f.args.length > 0)) then
    errWrite combineMsg (usage env)
  else if f.args.length > 1 then
    errWrite tooManyMsg (usage env)
  else if f.epochFlag then printEpochTime env
  else if f.beatFlag then printBeatTime env
  else if f.args.length = 1 then
    let arg := f.args.headD ""
    if hasPrefixAt arg.data then convertBeatToLocalRange env arg
    else convertEpochToLocal env arg
  else printCurrentTimes env

/-- The function `main`, run on the arguments after the program name. -/
def main (env : Env) (argv : List String) : Run :=
  match flagParse env ⟨false, false, false, []⟩ argv with
  | .failed msg => errWrite (msg ++ "\n") (usage env)
  | .helpWanted => usage env
  | .parsed f => mainBody env f

/-- An environment for concrete runs: the clock reads 2023-11-14 22:13:20 UTC
and a little later, the local zone is US Eastern standard time. -/
def sampleEnv : Env :=
  { progName := "utime"
    clock := fun k => 1700000000 * 1000000000 + 1000 * (k : Int)
    zone := fun _ => ("EST", -18000)
    locName := "Local"
    quote := fun v => "\"" ++ v ++ "\"" }

/-- A run that failed: nothing on standard output, the given messages and
then the usage text on standard error, exit code 1. -/
def FailsWith (env : Env) (r : Run) (msgs : List String) : Prop :=
  r.stdout = [] ∧ r.stderr = msgs ++ usageText env ∧ r.exitCode = 1

/-- The condition under which `main` refuses the parsed command line before
dispatching: conflicting flags, a flag with a positional argument, or more
than one positional argument. -/
def Rejected (f : Flags) : Prop :=
  (f.epochFlag = true ∧ f.beatFlag = true) ∨
  ((f.epochFlag = true ∨ f.beatFlag = true) ∧ f.args ≠ []) ∨
  2 ≤ f.args.length

/-! ## Flags and positional arguments on the command line

The reading of "supplies a flag" and "positional argument" against which the
dispatcher is checked.  Up to the first `--`, an argument of flag form that
names a flag supplies it and an argument not of flag form is positional;
every argument after the first `--` is positional. -/

/-- The name and the explicit value of an argument of flag form, split as
`FlagSet.parseOne` splits it: `-name`, `--name`, `-name=value`,
`--name=value`.  `none` for `--`, for an argument not of flag form and for
bad flag syntax. -/
def flagParts (s : String) : Option (String × Option String) :=
  match s.data with
  | '-' :: c :: cs =>
    if c = '-' ∧ cs = [] then none
    else
      match (if c = '-' then cs else c :: cs) with
      | [] => none
      | n0 :: ns =>
        if n0 = '-' ∨ n0 = '=' then none
        else
          some (String.mk (n0 :: ns.takeWhile (fun x => x ≠ '=')),
            match ns.dropWhile (fun x => x ≠ '=') with
            | [] => none
            | _ :: v => some (String.mk v))
  | _ => none

/-- Whether the argument `s` gives the boolean flag `name` the value `b`:
written bare or with an explicit value that `strconv.ParseBool` reads as
`b`. -/
def assigns (name : String) (b : Bool) (s : String) : Bool :=
  match flagParts s with
  | some (n, v) => decide (n = name) && decide (flagValue v = some b)
  | none => false

/-- The arguments before the first `--`. -/
def beforeDashes (argv : List String) : List String :=
  argv.takeWhile (fun s => decide (s ≠ "--"))

/-- The arguments after the first `--`. -/
def afterDashes (argv : List String) : List String :=
  (argv.dropWhile (fun s => decide (s ≠ "--"))).drop 1

/-- The arguments that `flag.Parse` reads as flags when none of them makes it
fail: those before the first argument that is `--` or not of flag form. -/
def flagsSeen (argv : List String) : List String :=
  argv.takeWhile (fun s => isFlagToken s && decide (s ≠ "--"))

/-- The command line supplies the flag `name`: an argument before the first
`--` sets it to `true`. -/
def Supplies (name : String) (argv : List String) : Prop :=
  ∃ s ∈ beforeDashes argv, assigns name true s = true

/-- The command line has a positional argument: an argument before the first
`--` that is not of flag form, or any argument after the first `--`. -/
def HasPositional (argv : List String) : Prop :=
  (∃ p ∈ beforeDashes argv, isFlagToken p = false) ∨ afterDashes argv ≠ []

/-- The command line still to be parsed conflicts with itself, given that
`-epoch` is already set iff `e` and `-beat` iff `b`: both flags are supplied,
or a flag is supplied together with a positional argument. -/
def Conflict (e b : Bool) (argv : List String) : Prop :=
  ((e = true ∨ Supplies "epoch" argv) ∧ (b = true ∨ Supplies "beat" argv)) ∨
  ((e = true ∨ b = true ∨ Supplies "epoch" argv ∨ Supplies "beat" argv) ∧
    HasPositional argv)

/-! ## What a base-10 integer is

The reading of "parses as a base-10 integer" against which the two converters
are checked: an optional sign, then one or more decimal digits, denoting the
usual value (of any size). -/

/-- The number denoted by a string of decimal digits read after the digits
denoting `n`. -/
def decimalValueFrom (n : Nat) (ds : List Char) : Nat :=
  ds.foldl (fun acc c => acc * 10 + digitVal c) n

/-- The number denoted by a string of decimal digits. -/
def decimalValue (ds : List Char) : Nat := decimalValueFrom 0 ds

/-- The integer denoted by a base-10 numeral: an optional `+` or `-`, then
one or more decimal digits; `none` for any other string. -/
def numeralValue (s : List Char) : Option Int :=
  match s with
  | [] => none
  | c :: cs =>
    let body := if c = '+' ∨ c = '-' then cs else s
    if body ≠ [] ∧ body.all isDecDigit = true then
      some (if c = '-' then -(decimalValue body : Int) else (decimalValue body : Int))
    else none

/-- The magnitude `mant * 2^exp` of a binary64 as a rational number. -/
def F64.mag (a : F64) : ℚ := (a.mant : ℚ) * (2 : ℚ) ^ a.exp

/-- The character of a decimal digit. -/
def digitChar (d : Nat) : Char := Char.ofNat (48 + d)

/-! ## The printed texts, digit by digit

The layouts of the spec written out character by character, against which
the formatting of the program is checked. -/

/-- The two decimal digits of a number from 0 to 99. -/
def digits2 (n : Int) : List Char := [digitChar (n / 10).toNat, digitChar (n % 10).toNat]

/-- The three decimal digits of a number from 0 to 999. -/
def digits3 (n : Int) : List Char :=
  [digitChar (n / 100).toNat, digitChar (n / 10 % 10).toNat, digitChar (n % 10).toNat]

/-- The four decimal digits of a number from 0 to 9999. -/
def digits4 (n : Int) : List Char :=
  [digitChar (n / 1000).toNat, digitChar (n / 100 % 10).toNat, digitChar (n / 10 % 10).toNat,
    digitChar (n % 10).toNat]

/-- The text `HH:MM:SS.mmm` for the second `sod` of the day and the
millisecond `ms` of the second. -/
def clockText (sod ms : Int) : List Char :=
  digits2 (sod / 3600) ++ [':'] ++ digits2 (sod % 3600 / 60) ++ [':'] ++ digits2 (sod % 60)
    ++ ['.'] ++ digits3 ms

/-- The second of the local day at the instant `t`. -/
def localSecondOfDay (env : Env) (t : Int) : Int :=
  (unixSec t + (env.zone (unixSec t)).2) % 86400

/-- The local wall-clock text `HH:MM:SS.mmm` of the instant `t`. -/
def localClockText (env : Env) (t : Int) : List Char :=
  clockText (localSecondOfDay env t) (t % 1000000000 / 1000000)

/-- The start of the UTC+1 calendar day that contains the instant `now`, by
plain arithmetic on epoch seconds. -/
def bmtDayStart (now : Int) : Int :=
  ((now / 1000000000 + 3600) / 86400 * 86400 - 3600) * 1000000000

/-- The instant `k * 86.4` seconds after the start of the UTC+1 day that
contains `now`: where beat `k` starts and beat `k - 1` ends. -/
def beatBoundary (now : Int) (k : Int) : Int := bmtDayStart now + 86400000000 * k

/-- The line of the spec for a beat whose range runs from the instant
`startT` to the instant `endT`:
`@<beat> corresponds to the time range <start HH:MM:SS.mmm> - <end HH:MM:SS.mmm>
<zone> (on <date>)`, zone and date being those of the start. -/
def rangeLine (env : Env) (beat : Nat) (startT endT : Int) : String :=
  "@" ++ toString beat ++ " corresponds to the time range "
    ++ String.mk (localClockText env startT) ++ " - " ++ String.mk (localClockText env endT)
    ++ " " ++ String.mk (fmtZone (inLocal env startT))
    ++ " (on " ++ String.mk (fmtDate (inLocal env startT)) ++ ")\n"

/-- The sample environment with the clock set to the epoch second `-5000`
(1969-12-31 22:36:40 UTC). -/
def preEpochEnv : Env := { sampleEnv with clock := fun _ => -5000 * 1000000000 }

/-- The sample environment with the clock set 82886.7 s after the epoch
(1970-01-01 23:01:26.7 UTC, that is 86.7 s after midnight in UTC+1). -/
def subSecondEnv : Env := { sampleEnv with clock := fun _ => 82886700000000 }


/-! ## The Gregorian calendar by its rules (spec side)

The epoch second that a printed timestamp denotes, computed from the rules of
the calendar alone: the leap-year rule, the lengths of the months, and days
counted year by year and month by month from 1 January 1970.  Nothing here is
taken from the program or from the conversions above. -/

/-- The leap-year rule: every fourth year, except the centuries not divisible
by 400. -/
def isLeapYear (y : Int) : Bool :=
  decide (y % 4 = 0) && (decide (y % 100 ≠ 0) || decide (y % 400 = 0))

/-- The number of days of a year. -/
def yearLength (y : Int) : Int := if isLeapYear y then 366 else 365

/-- The number of days of month `m` (1 to 12) of year `y`. -/
def daysInMonth (y m : Int) : Int :=
  if m = 2 then (if isLeapYear y then 29 else 28)
  else if m = 4 ∨ m = 6 ∨ m = 9 ∨ m = 11 then 30
  else 31

/-- The days from 1 January 1970 to 1 January of year `y` (negative before
1970): the lengths of the years in between, added up. -/
def daysBeforeYear (y : Int) : Int :=
  if 1970 ≤ y then ((List.range (y - 1970).toNat).map (fun (k : Nat) => yearLength (1970 + (k : Int)))).sum
  else -((List.range (1970 - y).toNat).map (fun (k : Nat) => yearLength (y + (k : Int)))).sum

/-- The days of year `y` before the first of month `m`: the lengths of the
months before, added up. -/
def daysBeforeMonth (y m : Int) : Int :=
  ((List.range (m - 1).toNat).map (fun (k : Nat) => daysInMonth y ((k : Int) + 1))).sum

/-- The day number (days since 1 January 1970) of the date `y-m-d`. -/
def gregorianDay (y m d : Int) : Int := daysBeforeYear y + daysBeforeMonth y m + (d - 1)

/-- The epoch second denoted by the wall-clock reading `y-m-d h:mi:s` taken in
a zone `offset` seconds east of UTC. -/
def gregorianEpoch (y m d h mi s offset : Int) : Int :=
  gregorianDay y m d * 86400 + h * 3600 + mi * 60 + s - offset

/-- The text `YYYY-MM-DD HH:MM:SS ZONE` and a newline. -/
def timestampLine (y m d h mi s : Int) (zone : String) : String :=
  String.mk (digits4 y ++ ['-'] ++ digits2 m ++ ['-'] ++ digits2 d ++ [' ']
    ++ digits2 h ++ [':'] ++ digits2 mi ++ [':'] ++ digits2 s ++ [' '] ++ zone.data ++ ['\n'])
/-! ## Theorems: the dispatcher -/

theorem failsWith_usage (env : Env) : FailsWith env (usage env) [] :=
  ⟨rfl, rfl, rfl⟩

theorem failsWith_errWrite (env : Env) (m : String) :
    FailsWith env (errWrite m (usage env)) [m] :=
  ⟨rfl, rfl, rfl⟩

theorem failsWith_enter (env : Env) (c : Call) (m : String) :
    FailsWith env (enter c (errWrite m (usage env))) [m] :=
  ⟨rfl, rfl, rfl⟩

theorem mainBody_of_parse (env : Env) (argv : List String) (f : Flags)
    (hparse : flagParse env ⟨false, false, false, []⟩ argv = .parsed f) :
    main env argv = mainBody env f := by
  simp [main, hparse]

/-- C1: when `flag.Parse` succeeds and the command line passes validation
(no help flag, not both flags, no flag with a positional argument, at most one
positional argument), `main` behaves as exactly one action: `printEpochTime`
for `-epoch`, `printBeatTime` for `-beat`, `convertBeatToLocalRange` for one
argument starting with `@`, `convertEpochToLocal` for one argument not
starting with `@`, `printCurrentTimes` for no flag and no argument; and the
run enters exactly one of the five actions. -/
theorem main_dispatch (env : Env) (argv : List String) (f : Flags)
    (hparse : flagParse env ⟨false, false, false, []⟩ argv = .parsed f)
    (hhelp : f.helpFlag = false)
    (hboth : ¬ (f.epochFlag = true ∧ f.beatFlag = true))
    (hcomb : ¬ ((f.epochFlag = true ∨ f.beatFlag = true) ∧ f.args ≠ []))
    (hmany : f.args.length ≤ 1) :
    (f.epochFlag = true → main env argv = printEpochTime env) ∧
    (f.beatFlag = true → main env argv = printBeatTime env) ∧
    (∀ arg, f.args = [arg] → hasPrefixAt arg.data = true →
      main env argv = convertBeatToLocalRange env arg) ∧
    (∀ arg, f.args = [arg] → hasPrefixAt arg.data = false →
      main env argv = convertEpochToLocal env arg) ∧
    (f.epochFlag = false → f.beatFlag = false → f.args = [] →
      main env argv = printCurrentTimes env) ∧
    ((main env argv).calls.filter Call.isAction).length = 1 := by
  rw [mainBody_of_parse env argv f hparse]
  obtain ⟨e, b, h, args⟩ := f
  simp only at hhelp hboth hcomb hmany
  subst hhelp
  match args, hmany with
  | [], _ =>
    cases e <;> cases b <;> simp_all [mainBody] <;> rfl
  | [arg], _ =>
    cases e <;> cases b <;> simp_all [mainBody]
    cases hp : hasPrefixAt arg.data
    · simp [convertEpochToLocal]
      cases parseInt arg.data <;> rfl
    · simp [convertBeatToLocalRange]
      cases parseBeat arg <;> rfl

/-- Witness for C1: `utime @500` passes validation and runs the beat-range
conversion of `@500`. -/
theorem main_dispatch_witness :
    flagParse sampleEnv ⟨false, false, false, []⟩ ["@500"] = .parsed ⟨false, false, false, ["@500"]⟩
      ∧ main sampleEnv ["@500"] = convertBeatToLocalRange sampleEnv "@500" :=
  ⟨by decide,
   (main_dispatch sampleEnv ["@500"] ⟨false, false, false, ["@500"]⟩ (by decide) rfl
      (by decide) (by decide) (by decide)).2.2.1 "@500" rfl (by decide)⟩

theorem rejected_fails (env : Env) (f : Flags) (h : Rejected f) :
    (mainBody env f).exitCode = 1 ∧ (mainBody env f).stdout = [] ∧
      (mainBody env f).calls = [Call.usage] ∧
      ∃ msgs, (mainBody env f).stderr = msgs ++ usageText env := by
  obtain ⟨e, b, hl, args⟩ := f
  cases hl
  · by_cases hc : ((e && b) || ((e || b) && decide (args.length > 0))) = true
    · simp only [mainBody, hc, if_true]
      exact ⟨rfl, rfl, rfl, [combineMsg], rfl⟩
    · have hlen : args.length > 1 := by
        rcases h with h | h | h
        · exfalso; apply hc; simp only at h; simp [h.1, h.2]
        · exfalso; apply hc
          simp only at h
          have : 0 < args.length := List.length_pos.mpr h.2
          rcases h.1 with h1 | h1 <;> simp [h1, this]
        · simpa using h
      simp only [mainBody, hc, hlen, if_true]
      exact ⟨rfl, rfl, rfl, [tooManyMsg], rfl⟩
  · simp only [mainBody, if_true]
    exact ⟨rfl, rfl, rfl, [], rfl⟩

theorem length_ge_two_of_mem {α : Type} {a b : α} {l : List α} (hab : a ≠ b)
    (ha : a ∈ l) (hb : b ∈ l) : 2 ≤ l.length := by
  match l, ha, hb with
  | [x], ha, hb =>
    simp only [List.mem_singleton] at ha hb
    exact absurd (ha.trans hb.symm) hab
  | _ :: _ :: _, _, _ => simp

theorem isFlagToken_data (s : String) (h : isFlagToken s = true) :
    ∃ c cs, s.data = '-' :: c :: cs := by
  unfold isFlagToken at h
  split at h
  · next c cs heq => exact ⟨_, _, heq⟩
  · simp at h

theorem parseOne_positional (env : Env) (st : Flags) (s : String) (rest : List String)
    (h : isFlagToken s = false) : parseOne env st s rest = .stop (s :: rest) := by
  unfold isFlagToken at h
  unfold parseOne
  split at h
  · simp at h
  · rfl

theorem flagParts_positional (s : String) (h : isFlagToken s = false) : flagParts s = none := by
  unfold isFlagToken at h
  unfold flagParts
  split at h
  · simp at h
  · rfl

theorem assigns_isFlagToken (name : String) (b : Bool) (s : String)
    (h : assigns name b s = true) : isFlagToken s = true := by
  cases hf : isFlagToken s
  · simp [assigns, flagParts_positional s hf] at h
  · rfl

theorem assigns_ne_dashes (name : String) (b : Bool) (s : String)
    (h : assigns name b s = true) : s ≠ "--" := by
  intro e
  subst e
  have h0 : flagParts "--" = none := by decide
  simp [assigns, h0] at h

/-- One call of `parseOne` on an argument of flag form other than `--` that
gives neither `-epoch` nor `-beat` an explicit false value: it fails, asks
for help, or consumes the flag, after which each of the two flags is set iff
it was set before or this argument sets it. -/
theorem parseOne_flag (env : Env) (st : Flags) (s : String) (rest : List String)
    (hflag : isFlagToken s = true) (hdd : s ≠ "--")
    (hfe : assigns "epoch" false s = false) (hfb : assigns "beat" false s = false) :
    (∃ msg, parseOne env st s rest = .failed msg) ∨
    parseOne env st s rest = .helpWanted ∨
    (∃ st1, parseOne env st s rest = .seen st1 ∧
      st1.epochFlag = (st.epochFlag || assigns "epoch" true s) ∧
      st1.beatFlag = (st.beatFlag || assigns "beat" true s)) := by
  obtain ⟨c, cs, hs⟩ := isFlagToken_data s hflag
  have hnd : ¬ (c = '-' ∧ cs = []) := by
    rintro ⟨h1, h2⟩
    apply hdd
    subst h1 h2
    obtain ⟨d⟩ := s
    simp only at hs
    subst hs
    rfl
  unfold assigns flagParts at hfe hfb ⊢
  unfold parseOne
  rw [hs] at hfe hfb ⊢
  simp only [hnd, if_false] at hfe hfb ⊢
  generalize (if c = '-' then cs else c :: cs) = name0 at hfe hfb ⊢
  match name0, hfe, hfb with
  | [], _, _ => exact Or.inl ⟨_, rfl⟩
  | n0 :: ns, hfe, hfb =>
    simp only at hfe hfb ⊢
    by_cases hbad : n0 = '-' ∨ n0 = '='
    · simp only [hbad, if_true]
      exact Or.inl ⟨_, rfl⟩
    · simp only [hbad, if_false] at hfe hfb ⊢
      generalize String.mk (n0 :: ns.takeWhile (fun x => x ≠ '=')) = name at hfe hfb ⊢
      generalize (match ns.dropWhile (fun x => x ≠ '=') with
        | [] => none
        | _ :: v => some (String.mk v) : Option String) = value at hfe hfb ⊢
      by_cases hE : name = "epoch"
      · subst hE
        cases hv : flagValue value with
        | none => simp only [true_or, if_true]; exact Or.inl ⟨_, rfl⟩
        | some b =>
          cases b
          · simp [hv] at hfe
          · simp only [true_or, if_true]
            refine Or.inr (Or.inr ⟨_, rfl, ?_, ?_⟩)
            · simp
            · simp
      · by_cases hB : name = "beat"
        · subst hB
          cases hv : flagValue value with
          | none => simp only [true_or, or_true, if_true]; exact Or.inl ⟨_, rfl⟩
          | some b =>
            cases b
            · simp [hv] at hfb
            · have hne : ¬ ("beat" = "epoch") := by decide
              simp only [true_or, or_true, if_true, hne, if_false]
              refine Or.inr (Or.inr ⟨_, rfl, ?_, ?_⟩)
              · simp
              · simp
        · by_cases hH : name = "h"
          · subst hH
            cases hv : flagValue value with
            | none => simp only [or_true, if_true]; exact Or.inl ⟨_, rfl⟩
            | some b =>
              have hne1 : ¬ ("h" = "epoch") := by decide
              have hne2 : ¬ ("h" = "beat") := by decide
              simp only [or_true, if_true, hne1, hne2, if_false]
              refine Or.inr (Or.inr ⟨_, rfl, ?_, ?_⟩)
              · simp
              · simp
          · simp only [hE, hB, hH, or_self, if_false]
            split
            · exact Or.inr (Or.inl rfl)
            · exact Or.inl ⟨_, rfl⟩

theorem beforeDashes_cons (s : String) (rest : List String) (h : s ≠ "--") :
    beforeDashes (s :: rest) = s :: beforeDashes rest := by
  simp [beforeDashes, List.takeWhile, h]

theorem afterDashes_cons (s : String) (rest : List String) (h : s ≠ "--") :
    afterDashes (s :: rest) = afterDashes rest := by
  simp [afterDashes, List.dropWhile, h]

theorem beforeDashes_dashes (rest : List String) : beforeDashes ("--" :: rest) = [] := by
  simp [beforeDashes, List.takeWhile]

theorem afterDashes_dashes (rest : List String) : afterDashes ("--" :: rest) = rest := by
  simp [afterDashes, List.dropWhile]

theorem beforeDashes_subset (argv : List String) : ∀ s ∈ beforeDashes argv, s ∈ argv :=
  fun _ hs => (List.takeWhile_sublist _).subset hs

theorem flagsSeen_cons (s : String) (rest : List String) (hflag : isFlagToken s = true)
    (h : s ≠ "--") : flagsSeen (s :: rest) = s :: flagsSeen rest := by
  simp [flagsSeen, List.takeWhile, hflag, h]

/-- A supplied flag is an argument of flag form somewhere in the list. -/
theorem supplies_mem (name : String) (argv : List String) (h : Supplies name argv) :
    ∃ s ∈ argv, isFlagToken s = true := by
  obtain ⟨s, hs, ha⟩ := h
  exact ⟨s, beforeDashes_subset argv s hs, assigns_isFlagToken name true s ha⟩

/-- The flags end at an argument that is not of flag form: a conflicting
command line is refused. -/
theorem conflict_stop_positional (st : Flags) (s : String) (rest : List String)
    (hs : isFlagToken s = false) (h : Conflict st.epochFlag st.beatFlag (s :: rest)) :
    Rejected { st with args := s :: rest } := by
  have hlen : ∀ name, Supplies name (s :: rest) → 2 ≤ (s :: rest).length := by
    intro name hsup
    obtain ⟨t, ht, htf⟩ := supplies_mem name _ hsup
    refine length_ge_two_of_mem (a := s) (b := t) ?_ (List.mem_cons_self _ _) ht
    intro e
    rw [e, htf] at hs
    cases hs
  have hne : (s :: rest) ≠ [] := List.cons_ne_nil _ _
  rcases h with ⟨he | he, hb | hb⟩ | ⟨hf, -⟩
  · exact Or.inl ⟨he, hb⟩
  · exact Or.inr (Or.inl ⟨Or.inl he, hne⟩)
  · exact Or.inr (Or.inl ⟨Or.inr hb, hne⟩)
  · exact Or.inr (Or.inr (hlen _ he))
  · rcases hf with he | hb | he | hb
    · exact Or.inr (Or.inl ⟨Or.inl he, hne⟩)
    · exact Or.inr (Or.inl ⟨Or.inr hb, hne⟩)
    · exact Or.inr (Or.inr (hlen _ he))
    · exact Or.inr (Or.inr (hlen _ hb))

/-- The flags end at `--`: a conflicting command line is refused. -/
theorem conflict_stop_dashes (st : Flags) (rest : List String)
    (h : Conflict st.epochFlag st.beatFlag ("--" :: rest)) :
    Rejected { st with args := rest } := by
  have hno : ∀ name, ¬ Supplies name ("--" :: rest) := by
    rintro name ⟨s, hs, -⟩
    rw [beforeDashes_dashes] at hs
    cases hs
  rcases h with ⟨he | he, hb | hb⟩ | ⟨hf, hp⟩
  · exact Or.inl ⟨he, hb⟩
  · exact absurd hb (hno _)
  · exact absurd he (hno _)
  · exact absurd he (hno _)
  · have hrest : rest ≠ [] := by
      rcases hp with ⟨p, hp1, -⟩ | hp
      · rw [beforeDashes_dashes] at hp1
        cases hp1
      · rwa [afterDashes_dashes] at hp
    rcases hf with he | hb | he | hb
    · exact Or.inr (Or.inl ⟨Or.inl he, hrest⟩)
    · exact Or.inr (Or.inl ⟨Or.inr hb, hrest⟩)
    · exact absurd he (hno _)
    · exact absurd hb (hno _)

/-- All arguments are consumed as flags: a conflicting command line is
refused. -/
theorem conflict_stop_nil (st : Flags) (h : Conflict st.epochFlag st.beatFlag []) :
    Rejected { st with args := [] } := by
  have hno : ∀ name, ¬ Supplies name [] := by
    rintro name ⟨s, hs, -⟩
    simp [beforeDashes] at hs
  rcases h with ⟨he | he, hb | hb⟩ | ⟨-, hp⟩
  · exact Or.inl ⟨he, hb⟩
  · exact absurd hb (hno _)
  · exact absurd he (hno _)
  · exact absurd he (hno _)
  · rcases hp with ⟨p, hp1, -⟩ | hp
    · simp [beforeDashes] at hp1
    · simp [afterDashes] at hp

/-- A consumed flag carries the conflict over to the rest of the command
line. -/
theorem conflict_step (e b : Bool) (s : String) (rest : List String)
    (hflag : isFlagToken s = true) (hdd : s ≠ "--") (h : Conflict e b (s :: rest)) :
    Conflict (e || assigns "epoch" true s) (b || assigns "beat" true s) rest := by
  have hsup : ∀ name, Supplies name (s :: rest) → assigns name true s = true ∨ Supplies name rest := by
    rintro name ⟨t, ht, hta⟩
    rw [beforeDashes_cons s rest hdd] at ht
    rcases List.mem_cons.mp ht with h1 | h1
    · exact Or.inl (h1 ▸ hta)
    · exact Or.inr ⟨t, h1, hta⟩
  have hpos : HasPositional (s :: rest) → HasPositional rest := by
    rintro (⟨p, hp, hpf⟩ | hp)
    · rw [beforeDashes_cons s rest hdd] at hp
      rcases List.mem_cons.mp hp with h1 | h1
      · rw [h1, hflag] at hpf
        cases hpf
      · exact Or.inl ⟨p, h1, hpf⟩
    · rw [afterDashes_cons s rest hdd] at hp
      exact Or.inr hp
  have hE : e = true ∨ Supplies "epoch" (s :: rest) →
      (e || assigns "epoch" true s) = true ∨ Supplies "epoch" rest := by
    rintro (h1 | h1)
    · exact Or.inl (by simp [h1])
    · rcases hsup _ h1 with h2 | h2
      · exact Or.inl (by simp [h2])
      · exact Or.inr h2
  have hB : b = true ∨ Supplies "beat" (s :: rest) →
      (b || assigns "beat" true s) = true ∨ Supplies "beat" rest := by
    rintro (h1 | h1)
    · exact Or.inl (by simp [h1])
    · rcases hsup _ h1 with h2 | h2
      · exact Or.inl (by simp [h2])
      · exact Or.inr h2
  rcases h with ⟨h1, h2⟩ | ⟨hf, hp⟩
  · exact Or.inl ⟨hE h1, hB h2⟩
  · refine Or.inr ⟨?_, hpos hp⟩
    rcases hf with h1 | h1 | h1 | h1
    · exact Or.inl (by simp [h1])
    · exact Or.inr (Or.inl (by simp [h1]))
    · rcases hE (Or.inr h1) with h2 | h2
      · exact Or.inl h2
      · exact Or.inr (Or.inr (Or.inl h2))
    · rcases hB (Or.inr h1) with h2 | h2
      · exact Or.inr (Or.inl h2)
      · exact Or.inr (Or.inr (Or.inr h2))

theorem flagParse_conflict (env : Env) (argv : List String) :
    ∀ (st f : Flags),
      (∀ s ∈ flagsSeen argv, assigns "epoch" false s = false ∧ assigns "beat" false s = false) →
      Conflict st.epochFlag st.beatFlag argv → flagParse env st argv = .parsed f →
      Rejected f := by
  induction argv with
  | nil =>
    intro st f _ hc hp
    simp only [flagParse, FlagOutcome.parsed.injEq] at hp
    subst hp
    exact conflict_stop_nil st hc
  | cons s rest ih =>
    intro st f hnf hc hp
    cases hflag : isFlagToken s
    · simp only [flagParse, parseOne_positional env st s rest hflag,
        FlagOutcome.parsed.injEq] at hp
      subst hp
      exact conflict_stop_positional st s rest hflag hc
    · by_cases hdd : s = "--"
      · subst hdd
        have h1 : parseOne env st "--" rest = .stop rest := rfl
        simp only [flagParse, h1, FlagOutcome.parsed.injEq] at hp
        subst hp
        exact conflict_stop_dashes st rest hc
      · have hseen := flagsSeen_cons s rest hflag hdd
        have hs := hnf s (by rw [hseen]; exact List.mem_cons_self _ _)
        have hnf1 : ∀ t ∈ flagsSeen rest,
            assigns "epoch" false t = false ∧ assigns "beat" false t = false :=
          fun t ht => hnf t (by rw [hseen]; exact List.mem_cons_of_mem _ ht)
        rcases parseOne_flag env st s rest hflag hdd hs.1 hs.2 with
          ⟨msg, h3⟩ | h3 | ⟨st1, h3, he1, hb1⟩
        · simp [flagParse, h3] at hp
        · simp [flagParse, h3] at hp
        · simp only [flagParse, h3] at hp
          refine ih st1 f hnf1 ?_ hp
          rw [he1, hb1]
          exact conflict_step _ _ s rest hflag hdd hc

/-- C2 (as amended): for every argument list in which no flag that
`flag.Parse` reads gives `-epoch` or `-beat` an explicit false value, and
which supplies both `-epoch` and `-beat`, or supplies `-epoch` or `-beat`
together with at least one positional argument, in whatever order flags and
positional arguments stand, the run ends with exit code 1, writes nothing to
standard output, ends its standard error with the usage text, and enters none
of the five actions.  A flag may be written `-name`, `--name` or with an
explicit true value; a positional argument is one not of flag form or one
after `--`. -/
theorem conflicting_arguments_fail (env : Env) (argv : List String)
    (hnofalse : ∀ s ∈ flagsSeen argv,
      assigns "epoch" false s = false ∧ assigns "beat" false s = false)
    (hconf : (Supplies "epoch" argv ∧ Supplies "beat" argv) ∨
      ((Supplies "epoch" argv ∨ Supplies "beat" argv) ∧ HasPositional argv)) :
    (main env argv).exitCode = 1 ∧ (main env argv).stdout = [] ∧
      (main env argv).calls = [Call.usage] ∧
      ∃ msgs, (main env argv).stderr = msgs ++ usageText env := by
  have hc : Conflict false false argv := by
    rcases hconf with ⟨h1, h2⟩ | ⟨h1, h2⟩
    · exact Or.inl ⟨Or.inr h1, Or.inr h2⟩
    · exact Or.inr ⟨Or.inr (Or.inr h1), h2⟩
  unfold main
  cases hp : flagParse env ⟨false, false, false, []⟩ argv with
  | parsed f =>
    exact rejected_fails env f (flagParse_conflict env argv _ f hnofalse hc hp)
  | failed msg => exact ⟨rfl, rfl, rfl, [msg ++ "\n"], rfl⟩
  | helpWanted => exact ⟨rfl, rfl, rfl, [], rfl⟩

/-- Witness for C2 (as amended): `utime 5 --beat=true -h=false`, a positional
argument followed by the beat flag. -/
theorem conflicting_arguments_fail_witness :
    (main sampleEnv ["5", "--beat=true", "-h=false"]).exitCode = 1 ∧
      (main sampleEnv ["5", "--beat=true", "-h=false"]).stdout = [] ∧
      (main sampleEnv ["5", "--beat=true", "-h=false"]).calls = [Call.usage] ∧
      ∃ msgs, (main sampleEnv ["5", "--beat=true", "-h=false"]).stderr
        = msgs ++ usageText sampleEnv :=
  conflicting_arguments_fail sampleEnv ["5", "--beat=true", "-h=false"] (by decide)
    (Or.inr ⟨Or.inr ⟨"--beat=true", by decide, by decide⟩,
      Or.inl ⟨"5", by decide, by decide⟩⟩)

/-- C2 (counterexample): the argument list `-epoch -epoch=false -beat` supplies
both flags, yet the run prints the current beat and exits with code 0: the
explicit value `false` unsets `-epoch` again. -/
theorem explicit_false_value_unsets_flag :
    Supplies "epoch" ["-epoch", "-epoch=false", "-beat"] ∧
    Supplies "beat" ["-epoch", "-epoch=false", "-beat"] ∧
    (main sampleEnv ["-epoch", "-epoch=false", "-beat"]).exitCode = 0 ∧
    (main sampleEnv ["-epoch", "-epoch=false", "-beat"]).calls = [Call.printBeatTime] := by
  refine ⟨⟨"-epoch", by decide, by decide⟩, ⟨"-beat", by decide, by decide⟩, ?_, ?_⟩ <;> decide

/-- The command lines `-epoch -beat -h=false`, `-epoch -- -86400`,
`-epoch 5 -x=y` and `--epoch --beat` all end with exit code 1. -/
theorem conflicting_arguments_examples :
    (main sampleEnv ["-epoch", "-beat", "-h=false"]).exitCode = 1 ∧
    (main sampleEnv ["-epoch", "--", "-86400"]).exitCode = 1 ∧
    (main sampleEnv ["-epoch", "5", "-x=y"]).exitCode = 1 ∧
    (main sampleEnv ["--epoch", "--beat"]).exitCode = 1 := by
  refine ⟨?_, ?_, ?_, ?_⟩ <;> decide
/-- C6: every error path and the help flag write nothing to standard output,
write their message (none for help) followed by the usage text to standard
error, and exit with code 1.  The paths: the help flag `-h`; an undefined
`-help`; a diagnostic of package `flag`; both flags set or a flag with a positional argument; more than one
positional argument; an epoch argument that `strconv.ParseInt` rejects; a beat
argument that the validation of `convertBeatToLocalRange` rejects. -/
theorem error_paths_fail (env : Env) (argv : List String) :
    (flagParse env ⟨false, false, false, []⟩ argv = .helpWanted →
      FailsWith env (main env argv) []) ∧
    (∀ msg, flagParse env ⟨false, false, false, []⟩ argv = .failed msg →
      FailsWith env (main env argv) [msg ++ "\n"]) ∧
    (∀ f, flagParse env ⟨false, false, false, []⟩ argv = .parsed f →
      (f.helpFlag = true → FailsWith env (main env argv) []) ∧
      (f.helpFlag = false →
        (f.epochFlag = true ∧ f.beatFlag = true) ∨
          ((f.epochFlag = true ∨ f.beatFlag = true) ∧ f.args ≠ []) →
        FailsWith env (main env argv) [combineMsg]) ∧
      (f.helpFlag = false → f.epochFlag = false → f.beatFlag = false → 2 ≤ f.args.length →
        FailsWith env (main env argv) [tooManyMsg]) ∧
      (∀ x, f.helpFlag = false → f.epochFlag = false → f.beatFlag = false → f.args = [x] →
        hasPrefixAt x.data = false → (∃ err, parseInt x.data = .error err) →
        FailsWith env (main env argv) [invalidEpochMsg x]) ∧
      (∀ x, f.helpFlag = false → f.epochFlag = false → f.beatFlag = false → f.args = [x] →
        hasPrefixAt x.data = true → parseBeat x = none →
        FailsWith env (main env argv) [invalidBeatMsg x])) := by
  refine ⟨fun h => ?_, fun msg h => ?_, fun f hparse => ?_⟩
  · simp only [main, h]
    exact failsWith_usage env
  · simp only [main, h]
    exact failsWith_errWrite env _
  rw [mainBody_of_parse env argv f hparse]
  obtain ⟨e, b, hl, args⟩ := f
  refine ⟨?_, ?_, ?_, ?_, ?_⟩
  · intro h
    simp only at h
    subst h
    simp only [mainBody, if_true]
    exact failsWith_usage env
  · intro h hc
    simp only at h hc
    subst h
    have hcond : ((e && b) || ((e || b) && decide (args.length > 0))) = true := by
      rcases hc with ⟨h1, h2⟩ | ⟨h1, h2⟩
      · simp [h1, h2]
      · have : 0 < args.length := List.length_pos.mpr h2
        rcases h1 with h1 | h1 <;> simp [h1, this]
    simp only [mainBody, hcond, if_true, Bool.false_eq_true, if_false]
    exact failsWith_errWrite env combineMsg
  · intro h he hb hlen
    simp only at h he hb hlen
    subst h he hb
    have hlen1 : args.length > 1 := hlen
    simp only [mainBody, hlen1, if_true, Bool.false_eq_true, if_false, Bool.and_self,
      Bool.or_self, Bool.false_and]
    exact failsWith_errWrite env tooManyMsg
  · intro x h he hb hargs hpre hbad
    simp only at h he hb hargs
    subst h he hb hargs
    simp only [mainBody, hpre, List.length_singleton, List.headD_cons, if_true,
      Bool.false_eq_true, if_false, Bool.and_self, Bool.or_self, Bool.false_and,
      gt_iff_lt, lt_self_iff_false]
    unfold convertEpochToLocal
    obtain ⟨err, hp⟩ := hbad
    rw [hp]
    exact failsWith_enter env _ _
  · intro x h he hb hargs hpre hbad
    simp only at h he hb hargs
    subst h he hb hargs
    simp only [mainBody, hpre, List.length_singleton, List.headD_cons, if_true,
      Bool.false_eq_true, if_false, Bool.and_self, Bool.or_self, Bool.false_and,
      gt_iff_lt, lt_self_iff_false]
    unfold convertBeatToLocalRange
    rw [hbad]
    exact failsWith_enter env _ _

/-- Witness for C6: `utime abc` writes the invalid-epoch message and the usage
text to standard error and exits with code 1. -/
theorem error_paths_fail_witness :
    FailsWith sampleEnv (main sampleEnv ["abc"]) [invalidEpochMsg "abc"] :=
  ((error_paths_fail sampleEnv ["abc"]).2.2 ⟨false, false, false, ["abc"]⟩ (by decide)).2.2.2.1
    "abc" rfl rfl rfl rfl (by decide) ⟨NumError.syntax_, rfl⟩

/-! ## Theorems: the calendar -/

theorem yoe_bounds (doe : Int) (h0 : 0 ≤ doe) (h1 : doe ≤ 146096) :
    0 ≤ (doe - doe / 1460 + doe / 36524 - doe / 146096) / 365 ∧
    (doe - doe / 1460 + doe / 36524 - doe / 146096) / 365 ≤ 399 := by
  omega

theorem doy_bounds (doe yoe : Int) (h0 : 0 ≤ doe) (h1 : doe ≤ 146096)
    (hy : yoe = (doe - doe / 1460 + doe / 36524 - doe / 146096) / 365) :
    0 ≤ doe - (365 * yoe + yoe / 4 - yoe / 100) ∧
      doe - (365 * yoe + yoe / 4 - yoe / 100) ≤ 365 := by
  have hd : doe / 36524 = 0 ∨ doe / 36524 = 1 ∨ doe / 36524 = 2 ∨ doe / 36524 = 3
      ∨ doe / 36524 = 4 := by omega
  have hg : yoe / 100 = 0 ∨ yoe / 100 = 1 ∨ yoe / 100 = 2 ∨ yoe / 100 = 3 := by omega
  rcases hd with hd | hd | hd | hd | hd <;> rcases hg with hg | hg | hg | hg <;> omega

/-- Breaking a day number into year, month, day and recomposing gives the
day number back. -/
theorem daysFromCivil_civilFromDays (z : Int) :
    daysFromCivil (civilFromDays z).1 (civilFromDays z).2.1 (civilFromDays z).2.2 = z := by
  have hdoe0 : 0 ≤ (z + 719468) % 146097 := Int.emod_nonneg _ (by decide)
  have hdoe1 : (z + 719468) % 146097 < 146097 := Int.emod_lt_of_pos _ (by decide)
  have hz : z = (z + 719468) / 146097 * 146097 + (z + 719468) % 146097 - 719468 := by omega
  simp only [civilFromDays, daysFromCivil]
  generalize (z + 719468) % 146097 = doe at *
  generalize (z + 719468) / 146097 = era at *
  obtain ⟨hy0, hy1⟩ := yoe_bounds doe hdoe0 (by omega)
  obtain ⟨hd0, hd1⟩ := doy_bounds doe _ hdoe0 (by omega) rfl
  generalize (doe - doe / 1460 + doe / 36524 - doe / 146096) / 365 = yoe at *
  generalize hdoy : doe - (365 * yoe + yoe / 4 - yoe / 100) = doy at *
  have h1 : (yoe + era * 400) / 400 = era := by omega
  have h2 : (yoe + era * 400) % 400 = yoe := by omega
  have h3 : yoe + era * 400 + 1 - 1 = yoe + era * 400 := by omega
  have h4 : ∀ x : Int, x + 3 - 3 = x := fun x => by omega
  have h5 : ∀ x : Int, x - 9 + 9 = x := fun x => by omega
  split_ifs <;> simp only [h1, h2, h3, h4, h5] <;> omega

theorem civilFromDays_month_day (z : Int) :
    1 ≤ (civilFromDays z).2.1 ∧ (civilFromDays z).2.1 ≤ 12 ∧
      1 ≤ (civilFromDays z).2.2 ∧ (civilFromDays z).2.2 ≤ 31 := by
  have hdoe0 : 0 ≤ (z + 719468) % 146097 := Int.emod_nonneg _ (by decide)
  have hdoe1 : (z + 719468) % 146097 < 146097 := Int.emod_lt_of_pos _ (by decide)
  simp only [civilFromDays]
  generalize (z + 719468) % 146097 = doe at *
  obtain ⟨hd0, hd1⟩ := doy_bounds doe _ hdoe0 (by omega) rfl
  generalize (doe - doe / 1460 + doe / 36524 - doe / 146096) / 365 = yoe at *
  generalize doe - (365 * yoe + yoe / 4 - yoe / 100) = doy at *
  split_ifs <;> omega

/-- Recomposing the broken-down fields of an instant gives its epoch second
back, whatever the zone offset. -/
theorem toUnix_civilOf (t : Int) (zoneName : String) (zoneOffset : Int) :
    (civilOf t zoneName zoneOffset).toUnix = unixSec t := by
  simp only [Civil.toUnix, civilOf, daysFromCivil_civilFromDays]
  omega

theorem unixSec_mul (e : Int) : unixSec (e * nsPerSec) = e := by
  simp [unixSec, nsPerSec]

/-- The instant `midnightBMT` is the start of the UTC+1 day that contains
`now`. -/
theorem midnightBMT_eq (now : Int) :
    midnightBMT now = ((unixSec now + 3600) / 86400 * 86400 - 3600) * nsPerSec := by
  simp only [midnightBMT, Civil.toUnix, civilOf, daysFromCivil_civilFromDays]
  congr 1
  omega

/-! ## Theorems: integer parsing -/

theorem decimalValueFrom_ge (ds : List Char) : ∀ n, n ≤ decimalValueFrom n ds := by
  induction ds with
  | nil => intro n; exact Nat.le_refl _
  | cons c cs ih =>
    intro n
    have := ih (n * 10 + digitVal c)
    simp only [decimalValueFrom, List.foldl_cons] at this ⊢
    omega

theorem digitVal_le (c : Char) (h : isDecDigit c = true) : digitVal c ≤ 9 := by
  simp only [isDecDigit, Bool.and_eq_true, decide_eq_true_eq] at h
  unfold digitVal
  omega

/-- The digit loop of `ParseUint` on a string of digits: the value if it fits
64 bits, a range error otherwise. -/
theorem parseUintLoop_digits (ds : List Char) :
    ∀ n, n < 2 ^ 64 → ds.all isDecDigit = true →
      (decimalValueFrom n ds < 2 ^ 64 → parseUintLoop ds n = .ok (decimalValueFrom n ds)) ∧
      (2 ^ 64 ≤ decimalValueFrom n ds → parseUintLoop ds n = .error .range) := by
  induction ds with
  | nil =>
    intro n hn _
    simp only [decimalValueFrom, List.foldl_nil, parseUintLoop]
    exact ⟨fun _ => trivial, fun h => absurd hn (by omega)⟩
  | cons c cs ih =>
    intro n hn hall
    simp only [List.all_cons, Bool.and_eq_true] at hall
    have hd := digitVal_le c hall.1
    have hge := decimalValueFrom_ge cs (n * 10 + digitVal c)
    have hstep : decimalValueFrom n (c :: cs) = decimalValueFrom (n * 10 + digitVal c) cs := rfl
    rw [hstep]
    simp only [parseUintLoop, hall.1, Bool.not_true, Bool.false_eq_true, if_false]
    by_cases hcut : n ≥ 18446744073709551615 / 10 + 1
    · simp only [hcut, if_true]
      have : 18446744073709551615 / 10 + 1 = 1844674407370955162 := by norm_num
      rw [this] at hcut
      constructor
      · intro h; norm_num at h; omega
      · intro _; trivial
    · simp only [hcut, if_false]
      have h10 : n * 10 < 2 ^ 64 := by norm_num at hcut ⊢; omega
      have hm : n * 10 % 2 ^ 64 = n * 10 := Nat.mod_eq_of_lt h10
      rw [hm]
      by_cases hov : n * 10 + digitVal c < 2 ^ 64
      · have hm2 : (n * 10 + digitVal c) % 2 ^ 64 = n * 10 + digitVal c := Nat.mod_eq_of_lt hov
        have hno : ¬ ((n * 10 + digitVal c < n * 10) ∨ (n * 10 + digitVal c > 18446744073709551615)) := by
          norm_num at hov ⊢; omega
        simp only [hm2, Bool.or_eq_true, decide_eq_true_eq, hno, if_false]
        exact ih _ hov hall.2
      · have hwrap : (n * 10 + digitVal c) % 2 ^ 64 < n * 10 := by
          norm_num at hov h10 ⊢; omega
        simp only [Bool.or_eq_true, decide_eq_true_eq, hwrap, true_or, if_true]
        constructor
        · intro h; norm_num at h hov hge; omega
        · intro _; trivial

/-- The digit loop of `ParseUint` on a string with a character that is not a
digit: an error. -/
theorem parseUintLoop_nondigit (ds : List Char) :
    ∀ n, ds.all isDecDigit = false → ∃ e, parseUintLoop ds n = .error e := by
  induction ds with
  | nil => intro n h; simp at h
  | cons c cs ih =>
    intro n h
    simp only [parseUintLoop]
    cases hc : isDecDigit c
    · exact ⟨NumError.syntax_, by simp⟩
    · simp only [List.all_cons, hc, Bool.true_and] at h
      simp only [Bool.not_true, Bool.false_eq_true, if_false]
      split
      · exact ⟨_, rfl⟩
      · split
        · exact ⟨_, rfl⟩
        · exact ih _ h

theorem parseUint_nondigit (body : List Char) (h : body.all isDecDigit = false) :
    ∃ e, parseUint body = .error e := by
  unfold parseUint
  split
  · exact ⟨_, rfl⟩
  · exact parseUintLoop_nondigit body 0 h

theorem parseUint_digits (body : List Char) (hne : body ≠ []) (h : body.all isDecDigit = true) :
    (decimalValue body < 2 ^ 64 → parseUint body = .ok (decimalValue body)) ∧
    (2 ^ 64 ≤ decimalValue body → parseUint body = .error .range) := by
  unfold parseUint
  rw [if_neg hne]
  exact parseUintLoop_digits body 0 (by norm_num) h

/-- What `parseInt` does after the sign has been taken off, in terms of the
result of `parseUint` on the rest. -/
theorem parseInt_cons (c : Char) (cs : List Char) :
    parseInt (c :: cs) =
      match parseUint (if c = '+' ∨ c = '-' then cs else c :: cs) with
      | .error .syntax_ => .error .syntax_
      | .error .range => .error .range
      | .ok un =>
        if decide (c ≠ '-') && decide (un ≥ 2 ^ 63) then .error .range
        else if decide (c = '-') && decide (un > 2 ^ 63) then .error .range
        else .ok (if c = '-' then -(un : Int) else (un : Int)) := by
  simp only [parseInt]
  cases hp : parseUint (if c = '+' ∨ c = '-' then cs else c :: cs) with
  | error e =>
    cases e
    · rfl
    · simp only
      by_cases hc : c = '-' <;> simp [hc]
  | ok un =>
    simp only
    by_cases hc : c = '-' <;> simp [hc]

/-- The function `strconv.ParseInt(s, 10, 64)` accepts exactly the base-10
numerals whose value fits a signed 64-bit integer, and returns that value. -/
theorem parseInt_ok_iff (s : List Char) (n : Int) :
    parseInt s = .ok n ↔ numeralValue s = some n ∧ -(2 ^ 63) ≤ n ∧ n < 2 ^ 63 := by
  cases s with
  | nil => simp [parseInt, numeralValue]
  | cons c cs =>
    rw [parseInt_cons]
    simp only [numeralValue]
    generalize (if c = '+' ∨ c = '-' then cs else c :: cs) = body
    by_cases hne : body = []
    · subst hne
      simp [parseUint]
    cases hall : body.all isDecDigit
    · obtain ⟨e, he⟩ := parseUint_nondigit body hall
      rw [he]
      cases e <;> simp [hne]
    · obtain ⟨h1, h2⟩ := parseUint_digits body hne hall
      have hcond : body ≠ [] ∧ True := ⟨hne, trivial⟩
      simp only [hne, ne_eq, not_false_eq_true, true_and, if_true]
      by_cases hv : decimalValue body < 2 ^ 64
      · rw [h1 hv]
        simp only
        by_cases hc : c = '-'
        · simp only [hc, ne_eq, not_true_eq_false, decide_False, Bool.false_and,
            Bool.false_eq_true, if_false, decide_True, Bool.true_and, decide_eq_true_eq, if_true]
          split
          · simp only [reduceCtorEq, Option.some.injEq, false_iff, not_and]
            intro h; subst h; omega
          · simp only [Except.ok.injEq, Option.some.injEq]
            constructor
            · intro h; subst h; omega
            · intro h; exact h.1
        · simp only [hc, ne_eq, not_false_eq_true, decide_True, Bool.true_and,
            decide_eq_true_eq, decide_False, Bool.false_and, Bool.false_eq_true, if_false]
          split
          · simp only [reduceCtorEq, Option.some.injEq, false_iff, not_and]
            intro h; subst h; omega
          · simp only [Except.ok.injEq, Option.some.injEq]
            constructor
            · intro h; subst h; omega
            · intro h; exact h.1
      · rw [h2 (by omega)]
        simp only [reduceCtorEq, Option.some.injEq, false_iff, not_and]
        intro h; subst h
        split <;> omega

theorem atoiFastLoop_digits (ds : List Char) :
    ∀ n : Nat, ds.all isDecDigit = true →
      atoiFastLoop ds (n : Int) = .ok ((decimalValueFrom n ds : Nat) : Int) := by
  induction ds with
  | nil => intro n _; rfl
  | cons c cs ih =>
    intro n hall
    simp only [List.all_cons, Bool.and_eq_true] at hall
    simp only [atoiFastLoop, hall.1, Bool.not_true, Bool.false_eq_true, if_false]
    have := ih (n * 10 + digitVal c) hall.2
    rw [show ((n : Int) * 10 + (digitVal c : Int)) = ((n * 10 + digitVal c : Nat) : Int) by
      push_cast; ring]
    exact this

theorem atoiFastLoop_nondigit (ds : List Char) :
    ∀ n : Int, ds.all isDecDigit = false → atoiFastLoop ds n = .error .syntax_ := by
  induction ds with
  | nil => intro n h; simp at h
  | cons c cs ih =>
    intro n h
    simp only [atoiFastLoop]
    cases hc : isDecDigit c
    · simp
    · simp only [List.all_cons, hc, Bool.true_and] at h
      simp only [Bool.not_true, Bool.false_eq_true, if_false]
      exact ih _ h

theorem decimalValueFrom_lt (ds : List Char) :
    ∀ n : Nat, ds.all isDecDigit = true →
      decimalValueFrom n ds < (n + 1) * 10 ^ ds.length := by
  induction ds with
  | nil => intro n _; simp [decimalValueFrom]
  | cons c cs ih =>
    intro n hall
    simp only [List.all_cons, Bool.and_eq_true] at hall
    have hd := digitVal_le c hall.1
    have h1 := ih (n * 10 + digitVal c) hall.2
    have hstep : decimalValueFrom n (c :: cs) = decimalValueFrom (n * 10 + digitVal c) cs := rfl
    rw [hstep, List.length_cons, pow_succ]
    calc decimalValueFrom (n * 10 + digitVal c) cs
        < (n * 10 + digitVal c + 1) * 10 ^ cs.length := h1
      _ ≤ ((n + 1) * 10) * 10 ^ cs.length := Nat.mul_le_mul_right _ (by omega)
      _ = (n + 1) * (10 ^ cs.length * 10) := by ring

theorem length_le_byteLen (s : List Char) : s.length ≤ byteLen s := by
  induction s with
  | nil => simp [byteLen]
  | cons c cs ih =>
    have hpos : 1 ≤ c.utf8Size := Char.utf8Size_pos c
    simp only [byteLen, List.map_cons, List.sum_cons, List.length_cons] at ih ⊢
    omega

/-- The function `strconv.Atoi` (64-bit `int`) accepts exactly the base-10
numerals whose value fits a signed 64-bit integer, and returns that value:
the fast path and the `ParseInt` path agree. -/
theorem atoi_ok_iff (s : List Char) (n : Int) :
    atoi s = .ok n ↔ numeralValue s = some n ∧ -(2 ^ 63) ≤ n ∧ n < 2 ^ 63 := by
  unfold atoi
  split
  · next hlen =>
    cases s with
    | nil => simp [byteLen] at hlen
    | cons c cs =>
      have hl := length_le_byteLen (c :: cs)
      simp only [List.length_cons] at hl
      simp only [numeralValue]
      have hor : (c = '-' ∨ c = '+') ↔ (c = '+' ∨ c = '-') := Or.comm
      simp only [hor]
      by_cases hsign : c = '+' ∨ c = '-'
      · simp only [hsign, if_true, true_and]
        by_cases hcs : cs = []
        · simp [hcs]
        · simp only [hcs, if_false, ne_eq, not_false_eq_true, true_and]
          cases hall : cs.all isDecDigit
          · simp [atoiFastLoop_nondigit cs 0 hall]
          · have hlt := decimalValueFrom_lt cs 0 hall
            have hpow : 10 ^ cs.length ≤ 10 ^ 18 := Nat.pow_le_pow_right (by norm_num) (by omega)
            have h0 := atoiFastLoop_digits cs 0 hall
            simp only [Nat.cast_zero] at h0
            simp only [h0, if_true, Except.ok.injEq, Option.some.injEq, decimalValue]
            constructor
            · intro h; subst h
              refine ⟨rfl, ?_⟩
              split <;> norm_num at hlt hpow ⊢ <;> omega
            · intro h; exact h.1
      · simp only [hsign, if_false, false_and, ne_eq, reduceCtorEq, not_false_eq_true, true_and]
        cases hall : (c :: cs).all isDecDigit
        · simp [atoiFastLoop_nondigit (c :: cs) 0 hall]
        · have hlt := decimalValueFrom_lt (c :: cs) 0 hall
          have hpow : 10 ^ (c :: cs).length ≤ 10 ^ 18 :=
            Nat.pow_le_pow_right (by norm_num) (by simp only [List.length_cons]; omega)
          have h0 := atoiFastLoop_digits (c :: cs) 0 hall
          simp only [Nat.cast_zero] at h0
          simp only [h0, if_true, Except.ok.injEq, Option.some.injEq, decimalValue]
          constructor
          · intro h; subst h
            refine ⟨rfl, ?_⟩
            split <;> norm_num at hlt hpow ⊢ <;> omega
          · intro h; exact h.1
  · exact parseInt_ok_iff s n

/-! ## Theorems: the two converters' validation -/

/-- The validation of `convertBeatToLocalRange` accepts exactly the inputs
whose remainder after one leading `@` is a base-10 numeral with a value in
`[0, 999]`. -/
theorem parseBeat_eq_some_iff (x : String) (n : Int) :
    parseBeat x = some n ↔
      numeralValue (trimPrefixAt x.data) = some n ∧ 0 ≤ n ∧ n ≤ 999 := by
  unfold parseBeat
  cases ha : atoi (trimPrefixAt x.data) with
  | error e =>
    simp only [reduceCtorEq, false_iff, not_and]
    intro hv h0 h1
    have := (atoi_ok_iff (trimPrefixAt x.data) n).mpr ⟨hv, by omega, by omega⟩
    rw [ha] at this
    cases this
  | ok m =>
    have hm := (atoi_ok_iff (trimPrefixAt x.data) m).mp ha
    simp only
    split
    · next hbad =>
      simp only [reduceCtorEq, false_iff, not_and]
      intro hv h0 h1
      rw [hm.1] at hv
      cases hv
      omega
    · next hgood =>
      simp only [Option.some.injEq]
      constructor
      · intro h; subst h; exact ⟨hm.1, by omega, by omega⟩
      · intro h
        have := hm.1.symm.trans h.1
        exact Option.some.inj this

theorem parseBeat_decimal : ∀ n : Nat, n < 1000 →
    parseBeat ("@" ++ toString n) = some (n : Int) := by
  decide!

theorem convertBeat_of_none (env : Env) (x : String) (h : parseBeat x = none) :
    convertBeatToLocalRange env x
      = enter (.convertBeatToLocalRange x) (errWrite (invalidBeatMsg x) (usage env)) := by
  simp only [convertBeatToLocalRange, h]

theorem convertBeat_of_some (env : Env) (x : String) (n : Int) (h : parseBeat x = some n) :
    (convertBeatToLocalRange env x).exitCode = 0 ∧ (convertBeatToLocalRange env x).stderr = [] ∧
      (convertBeatToLocalRange env x).stdout.length = 1 ∧
      (convertBeatToLocalRange env x).calls = [.convertBeatToLocalRange x] := by
  simp only [convertBeatToLocalRange, h]
  exact ⟨rfl, rfl, rfl, rfl⟩

/-- C3: `convertBeatToLocalRange` reports the invalid-beat error (the message
naming the input, then the usage text, on standard error; nothing on standard
output; exit code 1) if and only if the remainder of the input after one
leading `@` is not a base-10 numeral with a value in `[0, 999]`; otherwise it
exits with code 0 after one line on standard output.  In particular `@1000`,
`@-1` and `@xyz` are rejected and `@n` is accepted for every decimal
`n` in `0..999`. -/
theorem beat_validation (env : Env) :
    (∀ x : String,
      ((convertBeatToLocalRange env x).exitCode = 1 ↔
        ¬ ∃ n, numeralValue (trimPrefixAt x.data) = some n ∧ 0 ≤ n ∧ n ≤ 999) ∧
      ((convertBeatToLocalRange env x).exitCode = 1 →
        (convertBeatToLocalRange env x).stdout = [] ∧
        (convertBeatToLocalRange env x).stderr
          = ("Error: Invalid beat time '" ++ x ++ "'. Must be '@' followed by 0-999.\n")
              :: usageText env) ∧
      ((convertBeatToLocalRange env x).exitCode ≠ 1 →
        (convertBeatToLocalRange env x).exitCode = 0 ∧
        (convertBeatToLocalRange env x).stderr = [] ∧
        (convertBeatToLocalRange env x).stdout.length = 1)) ∧
    (convertBeatToLocalRange env "@1000").exitCode = 1 ∧
    (convertBeatToLocalRange env "@-1").exitCode = 1 ∧
    (convertBeatToLocalRange env "@xyz").exitCode = 1 ∧
    (∀ n : Nat, n < 1000 → (convertBeatToLocalRange env ("@" ++ toString n)).exitCode = 0) := by
  refine ⟨fun x => ?_, ?_, ?_, ?_, ?_⟩
  · cases hp : parseBeat x with
    | none =>
      rw [convertBeat_of_none env x hp]
      refine ⟨⟨fun _ => ?_, fun _ => rfl⟩, fun _ => ⟨rfl, rfl⟩, fun h => absurd rfl h⟩
      rintro ⟨n, hn⟩
      have := (parseBeat_eq_some_iff x n).mpr hn
      rw [hp] at this
      cases this
    | some n =>
      obtain ⟨h0, h1, h2, -⟩ := convertBeat_of_some env x n hp
      have hn := (parseBeat_eq_some_iff x n).mp hp
      refine ⟨⟨fun h => ?_, fun h => absurd ⟨n, hn⟩ h⟩, fun h => ?_, fun _ => ⟨h0, h1, h2⟩⟩
      · rw [h0] at h; cases h
      · rw [h0] at h; cases h
  · rw [convertBeat_of_none env "@1000" (by decide)]; rfl
  · rw [convertBeat_of_none env "@-1" (by decide)]; rfl
  · rw [convertBeat_of_none env "@xyz" (by decide)]; rfl
  · intro n hn
    exact (convertBeat_of_some env _ n (parseBeat_decimal n hn)).1

theorem convertEpoch_of_error (env : Env) (x : String) (e : NumError)
    (h : parseInt x.data = .error e) :
    convertEpochToLocal env x
      = enter (.convertEpochToLocal x) (errWrite (invalidEpochMsg x) (usage env)) := by
  simp only [convertEpochToLocal, h]

theorem convertEpoch_of_ok (env : Env) (x : String) (n : Int) (h : parseInt x.data = .ok n) :
    convertEpochToLocal env x
      = ⟨[String.mk (fmtDateTimeZone (localCivil env n)) ++ "\n"], [], 0,
          [.convertEpochToLocal x]⟩ := by
  simp only [convertEpochToLocal, h]
  rfl

/-- C4: `convertEpochToLocal` fails if and only if its input is not a base-10
numeral (optional sign, digits) with a value in the signed 64-bit range;
negative values are accepted.  When it fails it writes
`Error: Invalid epoch time '<x>'. Please provide an integer.` and the usage
text to standard error, nothing to standard output, and exits with code 1;
when it succeeds it prints exactly one line, the local timestamp of the parsed
epoch second, and exits with code 0. -/
theorem epoch_validation (env : Env) (x : String) :
    ((convertEpochToLocal env x).exitCode = 1 ↔
      ¬ ∃ n, numeralValue x.data = some n ∧ -(2 ^ 63) ≤ n ∧ n < 2 ^ 63) ∧
    ((convertEpochToLocal env x).exitCode = 1 →
      (convertEpochToLocal env x).stdout = [] ∧
      (convertEpochToLocal env x).stderr
        = ("Error: Invalid epoch time '" ++ x ++ "'. Please provide an integer.\n")
            :: usageText env) ∧
    (∀ n, numeralValue x.data = some n → -(2 ^ 63) ≤ n → n < 2 ^ 63 →
      (convertEpochToLocal env x).stdout
        = [String.mk (fmtDateTimeZone (localCivil env n)) ++ "\n"] ∧
      (convertEpochToLocal env x).stderr = [] ∧
      (convertEpochToLocal env x).exitCode = 0) ∧
    (convertEpochToLocal env "-86400").exitCode = 0 ∧
    (convertEpochToLocal env "abc").exitCode = 1 := by
  refine ⟨?_, ?_, ?_, ?_, ?_⟩
  · cases hp : parseInt x.data with
    | error e =>
      rw [convertEpoch_of_error env x e hp]
      refine ⟨fun _ => ?_, fun _ => rfl⟩
      rintro ⟨n, hn⟩
      have := (parseInt_ok_iff x.data n).mpr hn
      rw [hp] at this
      cases this
    | ok n =>
      rw [convertEpoch_of_ok env x n hp]
      refine ⟨fun h => ?_, fun h => absurd ⟨n, (parseInt_ok_iff x.data n).mp hp⟩ h⟩
      cases h
  · cases hp : parseInt x.data with
    | error e =>
      rw [convertEpoch_of_error env x e hp]
      exact fun _ => ⟨rfl, rfl⟩
    | ok n =>
      rw [convertEpoch_of_ok env x n hp]
      intro h; cases h
  · intro n hv hlo hhi
    have hp := (parseInt_ok_iff x.data n).mpr ⟨hv, hlo, hhi⟩
    rw [convertEpoch_of_ok env x n hp]
    exact ⟨rfl, rfl, rfl⟩
  · rw [convertEpoch_of_ok env "-86400" (-86400) (by rfl)]
  · rw [convertEpoch_of_error env "abc" .syntax_ (by rfl)]; rfl

/-! ## Theorems: beats -/

theorem beatOffsetNs_exact_0 : ∀ r : Nat, r < 100 →
    beatOffsetNs ((r + 0 : Nat) : Int) = 86400000000 * ((r + 0 : Nat) : Int) := by
  decide!

theorem beatOffsetNs_exact_1 : ∀ r : Nat, r < 100 →
    beatOffsetNs ((r + 100 : Nat) : Int) = 86400000000 * ((r + 100 : Nat) : Int) := by
  decide!

theorem beatOffsetNs_exact_2 : ∀ r : Nat, r < 100 →
    beatOffsetNs ((r + 200 : Nat) : Int) = 86400000000 * ((r + 200 : Nat) : Int) := by
  decide!

theorem beatOffsetNs_exact_3 : ∀ r : Nat, r < 100 →
    beatOffsetNs ((r + 300 : Nat) : Int) = 86400000000 * ((r + 300 : Nat) : Int) := by
  decide!

theorem beatOffsetNs_exact_4 : ∀ r : Nat, r < 100 →
    beatOffsetNs ((r + 400 : Nat) : Int) = 86400000000 * ((r + 400 : Nat) : Int) := by
  decide!

theorem beatOffsetNs_exact_5 : ∀ r : Nat, r < 100 →
    beatOffsetNs ((r + 500 : Nat) : Int) = 86400000000 * ((r + 500 : Nat) : Int) := by
  decide!

theorem beatOffsetNs_exact_6 : ∀ r : Nat, r < 100 →
    beatOffsetNs ((r + 600 : Nat) : Int) = 86400000000 * ((r + 600 : Nat) : Int) := by
  decide!

theorem beatOffsetNs_exact_7 : ∀ r : Nat, r < 100 →
    beatOffsetNs ((r + 700 : Nat) : Int) = 86400000000 * ((r + 700 : Nat) : Int) := by
  decide!

theorem beatOffsetNs_exact_8 : ∀ r : Nat, r < 100 →
    beatOffsetNs ((r + 800 : Nat) : Int) = 86400000000 * ((r + 800 : Nat) : Int) := by
  decide!

theorem beatOffsetNs_exact_9 : ∀ r : Nat, r < 100 →
    beatOffsetNs ((r + 900 : Nat) : Int) = 86400000000 * ((r + 900 : Nat) : Int) := by
  decide!

theorem beatOffsetNs_exact_last : beatOffsetNs 1000 = 86400000000 * 1000 := by
  decide!

/-- The offset of every beat boundary is computed without rounding error:
boundary `k` lies exactly `k * 86.4` seconds after midnight, for `k` from 0
to 1000. -/
theorem beatOffsetNs_exact (k : Nat) (hk : k ≤ 1000) :
    beatOffsetNs (k : Int) = 86400000000 * (k : Int) := by
  have key : ∀ j r : Nat, r + j = k →
      beatOffsetNs ((r + j : Nat) : Int) = 86400000000 * ((r + j : Nat) : Int) →
      beatOffsetNs (k : Int) = 86400000000 * (k : Int) := by
    intro j r h hh
    rwa [h] at hh
  by_cases h0 : k < 100
  · exact key 0 (k - 0) (by omega) (beatOffsetNs_exact_0 (k - 0) (by omega))
  by_cases h1 : k < 200
  · exact key 100 (k - 100) (by omega) (beatOffsetNs_exact_1 (k - 100) (by omega))
  by_cases h2 : k < 300
  · exact key 200 (k - 200) (by omega) (beatOffsetNs_exact_2 (k - 200) (by omega))
  by_cases h3 : k < 400
  · exact key 300 (k - 300) (by omega) (beatOffsetNs_exact_3 (k - 300) (by omega))
  by_cases h4 : k < 500
  · exact key 400 (k - 400) (by omega) (beatOffsetNs_exact_4 (k - 400) (by omega))
  by_cases h5 : k < 600
  · exact key 500 (k - 500) (by omega) (beatOffsetNs_exact_5 (k - 500) (by omega))
  by_cases h6 : k < 700
  · exact key 600 (k - 600) (by omega) (beatOffsetNs_exact_6 (k - 600) (by omega))
  by_cases h7 : k < 800
  · exact key 700 (k - 700) (by omega) (beatOffsetNs_exact_7 (k - 700) (by omega))
  by_cases h8 : k < 900
  · exact key 800 (k - 800) (by omega) (beatOffsetNs_exact_8 (k - 800) (by omega))
  by_cases h9 : k < 1000
  · exact key 900 (k - 900) (by omega) (beatOffsetNs_exact_9 (k - 900) (by omega))
  have hk1 : k = 1000 := by omega
  subst hk1
  exact beatOffsetNs_exact_last

/-! ## Theorems: formatting -/

theorem zeroPad3_digits : ∀ a : Nat, a < 1000 →
    zeroPad 3 (natDigits a) = [digitChar (a / 100), digitChar (a / 10 % 10), digitChar (a % 10)]
      ∧ (natDigits a).length ≤ 3 := by
  decide!

theorem zeroPad2_digits : ∀ b : Nat, b < 100 →
    zeroPad 2 (natDigits b) = [digitChar (b / 10), digitChar (b % 10)] := by
  decide!

theorem zeroPad_append (w : Nat) (xs ys : List Char) :
    zeroPad (w + ys.length) (xs ++ ys) = zeroPad w xs ++ ys := by
  unfold zeroPad
  rw [List.length_append, List.append_assoc]
  congr 2
  omega

/-- The helper `appendInt` with width 2 writes a number from 0 to 99 as its two
digits. -/
theorem appendInt_two (x : Int) (h0 : 0 ≤ x) (h1 : x ≤ 99) : appendInt x 2 = digits2 x := by
  unfold appendInt digits2
  have hneg : ¬ x < 0 := by omega
  simp only [hneg, if_false, List.nil_append]
  rw [zeroPad2_digits x.natAbs (by omega)]
  have e1 : x.natAbs / 10 = (x / 10).toNat := by omega
  have e2 : x.natAbs % 10 = (x % 10).toNat := by omega
  rw [e1, e2]

/-- Three zero-padded digits of a number from 0 to 999. -/
theorem zeroPad_three (x : Int) (h0 : 0 ≤ x) (h1 : x ≤ 999) :
    zeroPad 3 (natDigits x.toNat) = digits3 x := by
  unfold digits3
  rw [(zeroPad3_digits x.toNat (by omega)).1]
  have e1 : x.toNat / 100 = (x / 100).toNat := by omega
  have e2 : x.toNat / 10 % 10 = (x / 10 % 10).toNat := by omega
  have e3 : x.toNat % 10 = (x % 10).toNat := by omega
  rw [e1, e2, e3]

/-- The layout `15:04:05.000` of an instant in the local zone is its local
wall-clock text, digit by digit. -/
theorem fmtClockMillis_inLocal (env : Env) (t : Int) :
    fmtClockMillis (inLocal env t) = localClockText env t := by
  have h0 : 0 ≤ (unixSec t + (env.zone (unixSec t)).2) % 86400 :=
    Int.emod_nonneg _ (by decide)
  have h1 : (unixSec t + (env.zone (unixSec t)).2) % 86400 < 86400 :=
    Int.emod_lt_of_pos _ (by decide)
  unfold fmtClockMillis fmtClock inLocal civilOf localClockText clockText localSecondOfDay
  simp only [nanoOf, nsPerSec]
  generalize (unixSec t + (env.zone (unixSec t)).2) % 86400 = sod at h0 h1 ⊢
  rw [appendInt_two _ (by omega) (by omega), appendInt_two _ (by omega) (by omega),
    appendInt_two _ (by omega) (by omega), zeroPad_three _ (by omega) (by omega)]

theorem fmtInt_natCast (b : Nat) : String.mk (fmtInt (b : Int)) = toString b := by
  unfold fmtInt natDigits
  have hneg : ¬ ((b : Int) < 0) := by omega
  simp only [hneg, if_false, List.nil_append, Int.natAbs_ofNat]
  rfl
theorem zeroPad4_digits_0 : ∀ a : Nat, a < 1000 →
    zeroPad 4 (natDigits (a + 0))
      = [digitChar 0, digitChar (a / 100), digitChar (a / 10 % 10), digitChar (a % 10)] := by
  decide!

theorem zeroPad4_digits_1 : ∀ a : Nat, a < 1000 →
    zeroPad 4 (natDigits (a + 1000))
      = [digitChar 1, digitChar (a / 100), digitChar (a / 10 % 10), digitChar (a % 10)] := by
  decide!

theorem zeroPad4_digits_2 : ∀ a : Nat, a < 1000 →
    zeroPad 4 (natDigits (a + 2000))
      = [digitChar 2, digitChar (a / 100), digitChar (a / 10 % 10), digitChar (a % 10)] := by
  decide!

theorem zeroPad4_digits_3 : ∀ a : Nat, a < 1000 →
    zeroPad 4 (natDigits (a + 3000))
      = [digitChar 3, digitChar (a / 100), digitChar (a / 10 % 10), digitChar (a % 10)] := by
  decide!

theorem zeroPad4_digits_4 : ∀ a : Nat, a < 1000 →
    zeroPad 4 (natDigits (a + 4000))
      = [digitChar 4, digitChar (a / 100), digitChar (a / 10 % 10), digitChar (a % 10)] := by
  decide!

theorem zeroPad4_digits_5 : ∀ a : Nat, a < 1000 →
    zeroPad 4 (natDigits (a + 5000))
      = [digitChar 5, digitChar (a / 100), digitChar (a / 10 % 10), digitChar (a % 10)] := by
  decide!

theorem zeroPad4_digits_6 : ∀ a : Nat, a < 1000 →
    zeroPad 4 (natDigits (a + 6000))
      = [digitChar 6, digitChar (a / 100), digitChar (a / 10 % 10), digitChar (a % 10)] := by
  decide!

theorem zeroPad4_digits_7 : ∀ a : Nat, a < 1000 →
    zeroPad 4 (natDigits (a + 7000))
      = [digitChar 7, digitChar (a / 100), digitChar (a / 10 % 10), digitChar (a % 10)] := by
  decide!

theorem zeroPad4_digits_8 : ∀ a : Nat, a < 1000 →
    zeroPad 4 (natDigits (a + 8000))
      = [digitChar 8, digitChar (a / 100), digitChar (a / 10 % 10), digitChar (a % 10)] := by
  decide!

theorem zeroPad4_digits_9 : ∀ a : Nat, a < 1000 →
    zeroPad 4 (natDigits (a + 9000))
      = [digitChar 9, digitChar (a / 100), digitChar (a / 10 % 10), digitChar (a % 10)] := by
  decide!

/-- Four zero-padded digits of a number below 10000. -/
theorem zeroPad4_digits (n : Nat) (hn : n < 10000) :
    zeroPad 4 (natDigits n)
      = [digitChar (n / 1000), digitChar (n / 100 % 10), digitChar (n / 10 % 10),
          digitChar (n % 10)] := by
  have key : ∀ j a : Nat, a < 1000 → a + 1000 * j = n →
      zeroPad 4 (natDigits (a + 1000 * j))
        = [digitChar j, digitChar (a / 100), digitChar (a / 10 % 10), digitChar (a % 10)] →
      zeroPad 4 (natDigits n)
        = [digitChar (n / 1000), digitChar (n / 100 % 10), digitChar (n / 10 % 10),
            digitChar (n % 10)] := by
    intro j a ha h hh
    rw [h] at hh
    rw [hh]
    have e1 : n / 1000 = j := by omega
    have e2 : n / 100 % 10 = a / 100 := by omega
    have e3 : n / 10 % 10 = a / 10 % 10 := by omega
    have e4 : n % 10 = a % 10 := by omega
    rw [e1, e2, e3, e4]
  by_cases h0 : n < 1000
  · exact key 0 (n - 0) (by omega) (by omega) (zeroPad4_digits_0 (n - 0) (by omega))
  by_cases h1 : n < 2000
  · exact key 1 (n - 1000) (by omega) (by omega) (zeroPad4_digits_1 (n - 1000) (by omega))
  by_cases h2 : n < 3000
  · exact key 2 (n - 2000) (by omega) (by omega) (zeroPad4_digits_2 (n - 2000) (by omega))
  by_cases h3 : n < 4000
  · exact key 3 (n - 3000) (by omega) (by omega) (zeroPad4_digits_3 (n - 3000) (by omega))
  by_cases h4 : n < 5000
  · exact key 4 (n - 4000) (by omega) (by omega) (zeroPad4_digits_4 (n - 4000) (by omega))
  by_cases h5 : n < 6000
  · exact key 5 (n - 5000) (by omega) (by omega) (zeroPad4_digits_5 (n - 5000) (by omega))
  by_cases h6 : n < 7000
  · exact key 6 (n - 6000) (by omega) (by omega) (zeroPad4_digits_6 (n - 6000) (by omega))
  by_cases h7 : n < 8000
  · exact key 7 (n - 7000) (by omega) (by omega) (zeroPad4_digits_7 (n - 7000) (by omega))
  by_cases h8 : n < 9000
  · exact key 8 (n - 8000) (by omega) (by omega) (zeroPad4_digits_8 (n - 8000) (by omega))
  exact key 9 (n - 9000) (by omega) (by omega) (zeroPad4_digits_9 (n - 9000) (by omega))

/-- The helper `appendInt` with width 4 writes a number from 0 to 9999 as its
four digits. -/
theorem appendInt_four (x : Int) (h0 : 0 ≤ x) (h1 : x ≤ 9999) : appendInt x 4 = digits4 x := by
  unfold appendInt digits4
  have hneg : ¬ x < 0 := by omega
  simp only [hneg, if_false, List.nil_append]
  rw [zeroPad4_digits x.natAbs (by omega)]
  have e1 : x.natAbs / 1000 = (x / 1000).toNat := by omega
  have e2 : x.natAbs / 100 % 10 = (x / 100 % 10).toNat := by omega
  have e3 : x.natAbs / 10 % 10 = (x / 10 % 10).toNat := by omega
  have e4 : x.natAbs % 10 = (x % 10).toNat := by omega
  rw [e1, e2, e3, e4]
/-! ## Theorems: beat ranges -/

theorem wrapInt64_of_range (x : Int) (h0 : -(2 ^ 63) ≤ x) (h1 : x < 2 ^ 63) :
    wrapInt64 x = x := by
  unfold wrapInt64
  omega

theorem secondsSinceMidnightBMT_of_nonneg (s : Int) (hs : -3600 ≤ s) (hs1 : s < 2 ^ 63 - 3600) :
    secondsSinceMidnightBMT s = (s + 3600) % 86400 := by
  unfold secondsSinceMidnightBMT goMod
  rw [wrapInt64_of_range _ (by omega) (by omega)]
  exact Int.tmod_eq_emod (by omega) (by decide)

theorem beatOffsetNs_exact_int (k : Int) (h0 : 0 ≤ k) (h1 : k ≤ 1000) :
    beatOffsetNs k = 86400000000 * k := by
  have h := beatOffsetNs_exact k.toNat (by omega)
  rwa [Int.toNat_of_nonneg h0] at h

/-- The instant `midnightBMT` that the program gets from the calendar is the
start of the UTC+1 day by plain arithmetic. -/
theorem midnightBMT_eq_dayStart (now : Int) : midnightBMT now = bmtDayStart now := by
  rw [midnightBMT_eq]
  rfl

/-- The range the program computes for a beat from 0 to 999 runs between the
two beat boundaries. -/
theorem beatRange_eq (now : Int) (b : Nat) (hb : b ≤ 999) :
    beatRange now (b : Int) = (beatBoundary now b, beatBoundary now (b + 1)) := by
  unfold beatRange beatBoundary
  rw [midnightBMT_eq_dayStart, beatOffsetNs_exact_int _ (by omega) (by omega),
    beatOffsetNs_exact_int _ (by omega) (by omega)]

/-- What `convertBeatToLocalRange` does with the argument `@b` for a beat from
0 to 999: one line on standard output, the line of the spec for the range
between the beat boundaries `b` and `b + 1` of the current UTC+1 day. -/
theorem convertBeat_decimal (env : Env) (b : Nat) (hb : b ≤ 999) :
    convertBeatToLocalRange env ("@" ++ toString b) =
      ⟨[rangeLine env b (beatBoundary (env.clock 1) b) (beatBoundary (env.clock 1) (b + 1))],
        [], 0, [.convertBeatToLocalRange ("@" ++ toString b)]⟩ := by
  unfold convertBeatToLocalRange
  rw [parseBeat_decimal b (by omega)]
  simp only [beatRange_eq _ b hb, fmtClockMillis_inLocal, fmtInt_natCast]
  rfl
/-! ## Theorems: binary64 rounding -/

theorem pow2Num_pos (k : Int) : 0 < pow2Num k := Nat.pow_pos (by decide)

theorem pow2Den_pos (k : Int) : 0 < pow2Den k := Nat.pow_pos (by decide)

/-- The pair `pow2Num k`, `pow2Den k` is the fraction `2^k`. -/
theorem pow2_ratio (k : Int) : (pow2Num k : ℚ) / (pow2Den k : ℚ) = (2 : ℚ) ^ k := by
  unfold pow2Num pow2Den
  rcases le_total 0 k with h | h
  · have h1 : (-k).toNat = 0 := Int.toNat_eq_zero.mpr (by omega)
    rw [h1]
    simp only [pow_zero, Nat.cast_one, div_one, Nat.cast_pow, Nat.cast_ofNat]
    rw [← zpow_natCast, Int.toNat_of_nonneg h]
  · have h1 : k.toNat = 0 := Int.toNat_eq_zero.mpr h
    rw [h1]
    simp only [pow_zero, Nat.cast_one, Nat.cast_pow, Nat.cast_ofNat, one_div]
    rw [← zpow_natCast, Int.toNat_of_nonneg (by omega : 0 ≤ -k), zpow_neg, inv_inv]

/-- Rounding half-to-even moves a fraction by at most one half. -/
theorem roundHalfEven_err (n d : Nat) (hd : 0 < d) :
    |(roundHalfEven n d : ℚ) - (n : ℚ) / (d : ℚ)| ≤ 1 / 2 := by
  have hdq : (0 : ℚ) < d := by exact_mod_cast hd
  have hdiv := Nat.div_add_mod n d
  have hmod := Nat.mod_lt n hd
  have hn : (n : ℚ) = (d : ℚ) * ((n / d : Nat) : ℚ) + ((n % d : Nat) : ℚ) := by
    exact_mod_cast hdiv.symm
  have hr0 : (0 : ℚ) ≤ ((n % d : Nat) : ℚ) := by positivity
  have hr1 : ((n % d : Nat) : ℚ) < d := by exact_mod_cast hmod
  rw [abs_le]
  have key : (n : ℚ) / d = ((n / d : Nat) : ℚ) + ((n % d : Nat) : ℚ) / d := by
    rw [hn]; field_simp; ring
  rw [key]
  unfold roundHalfEven
  simp only
  split_ifs with h1 h2 h3
  · have : (2 : ℚ) * ((n % d : Nat) : ℚ) < d := by exact_mod_cast h1
    have h4 : ((n % d : Nat) : ℚ) / d < 1 / 2 := by
      rw [div_lt_iff₀ hdq]; linarith
    have h5 : 0 ≤ ((n % d : Nat) : ℚ) / d := by positivity
    constructor <;> linarith
  · have : (d : ℚ) < 2 * ((n % d : Nat) : ℚ) := by exact_mod_cast h2
    have h4 : 1 / 2 < ((n % d : Nat) : ℚ) / d := by
      rw [lt_div_iff₀ hdq]; linarith
    have h5 : ((n % d : Nat) : ℚ) / d < 1 := by
      rw [div_lt_one hdq]; exact hr1
    push_cast
    constructor <;> linarith
  · have h6 : 2 * (n % d) = d := by omega
    have : (2 : ℚ) * ((n % d : Nat) : ℚ) = d := by exact_mod_cast h6
    have h4 : ((n % d : Nat) : ℚ) / d = 1 / 2 := by
      rw [div_eq_iff (ne_of_gt hdq)]; linarith
    rw [h4]
    constructor <;> linarith
  · have h6 : 2 * (n % d) = d := by omega
    have : (2 : ℚ) * ((n % d : Nat) : ℚ) = d := by exact_mod_cast h6
    have h4 : ((n % d : Nat) : ℚ) / d = 1 / 2 := by
      rw [div_eq_iff (ne_of_gt hdq)]; linarith
    rw [h4]
    push_cast
    constructor <;> linarith

/-- Rounding half-to-even leaves a whole number unchanged. -/
theorem roundHalfEven_exact (q d : Nat) (hd : 0 < d) : roundHalfEven (q * d) d = q := by
  unfold roundHalfEven
  simp only [Nat.mul_mod_left, Nat.mul_zero]
  rw [Nat.mul_div_cancel _ hd]
  simp [hd]

theorem bitLenAux_zero (fuel : Nat) : bitLenAux fuel 0 = 0 := by
  cases fuel <;> simp [bitLenAux]

theorem bitLen_step (L q n s : Nat) (hq : 0 < q) (h1 : 2 ^ (L - 1) ≤ q) (h2 : q < 2 ^ L)
    (hqn : q = n / 2 ^ s) : 2 ^ (L + s - 1) ≤ n ∧ n < 2 ^ (L + s) := by
  have hL : 1 ≤ L := by
    by_contra hc
    have h0 : L = 0 := by omega
    rw [h0] at h2
    simp at h2
    omega
  have hs : 0 < 2 ^ s := Nat.pow_pos (by decide)
  have hdm := Nat.div_add_mod n (2 ^ s)
  have hmod := Nat.mod_lt n hs
  rw [← hqn] at hdm
  have e1 : L + s - 1 = (L - 1) + s := by omega
  rw [e1, pow_add, pow_add]
  constructor
  · calc 2 ^ (L - 1) * 2 ^ s ≤ q * 2 ^ s := Nat.mul_le_mul_right _ h1
      _ = 2 ^ s * q := Nat.mul_comm _ _
      _ ≤ n := by omega
  · calc n < 2 ^ s * q + 2 ^ s := by omega
      _ = (q + 1) * 2 ^ s := by ring
      _ ≤ 2 ^ L * 2 ^ s := Nat.mul_le_mul_right _ h2

theorem bitLenAux_spec : ∀ fuel n : Nat, n ≤ fuel → 0 < n →
    2 ^ (bitLenAux fuel n - 1) ≤ n ∧ n < 2 ^ bitLenAux fuel n := by
  intro fuel
  induction fuel with
  | zero => intro n h1 h2; omega
  | succ f ih =>
    intro n hle hpos
    have hne : n ≠ 0 := by omega
    simp only [bitLenAux, hne, if_false]
    split_ifs with h32 h8
    · have hq : 0 < n / 2 ^ 32 := Nat.div_pos h32 (Nat.pow_pos (by decide))
      have hlt : n / 2 ^ 32 < n := Nat.div_lt_self hpos (by norm_num)
      obtain ⟨ha, hb⟩ := ih (n / 2 ^ 32) (by omega) hq
      exact bitLen_step _ _ n 32 hq ha hb rfl
    · have hq : 0 < n / 2 ^ 8 := Nat.div_pos h8 (Nat.pow_pos (by decide))
      have hlt : n / 2 ^ 8 < n := Nat.div_lt_self hpos (by norm_num)
      obtain ⟨ha, hb⟩ := ih (n / 2 ^ 8) (by omega) hq
      exact bitLen_step _ _ n 8 hq ha hb rfl
    · by_cases h2 : n / 2 = 0
      · have h1 : n = 1 := by omega
        subst h1
        simp [bitLenAux_zero]
      · obtain ⟨ha, hb⟩ := ih (n / 2) (by omega) (by omega)
        have := bitLen_step _ _ n 1 (by omega) ha hb (by simp)
        exact this

theorem bitLen_spec (n : Nat) (hn : 0 < n) : 2 ^ (bitLen n - 1) ≤ n ∧ n < 2 ^ bitLen n :=
  bitLenAux_spec n n (Nat.le_refl n) hn

theorem two_zpow_natCast_sub (a b : Nat) :
    (2 : ℚ) ^ ((a : Int) - (b : Int)) = (2 : ℚ) ^ a / (2 : ℚ) ^ b := by
  rw [zpow_sub₀ (by norm_num : (2 : ℚ) ≠ 0), zpow_natCast, zpow_natCast]

/-- The binade computed by `floorLog2` is not above the fraction. -/
theorem floorLog2_le (n d : Nat) (hn : 0 < n) (hd : 0 < d) :
    (2 : ℚ) ^ floorLog2 n d ≤ (n : ℚ) / (d : ℚ) := by
  have hdq : (0 : ℚ) < d := by exact_mod_cast hd
  unfold floorLog2
  simp only
  split_ifs with h
  · rw [← pow2_ratio, div_le_div_iff₀ (by exact_mod_cast pow2Den_pos _) hdq]
    have : ((d * pow2Num ((bitLen n : Int) - (bitLen d : Int)) : Nat) : ℚ)
        ≤ ((n * pow2Den ((bitLen n : Int) - (bitLen d : Int)) : Nat) : ℚ) := by
      exact_mod_cast h
    push_cast at this
    linarith
  · obtain ⟨hn1, -⟩ := bitLen_spec n hn
    obtain ⟨-, hd2⟩ := bitLen_spec d hd
    have hn1q : (2 : ℚ) ^ (bitLen n - 1) ≤ n := by exact_mod_cast hn1
    have hd2q : (d : ℚ) ≤ (2 : ℚ) ^ bitLen d := by exact_mod_cast hd2.le
    have hbl : 1 ≤ bitLen n := by
      by_contra hc
      have h0 : bitLen n = 0 := by omega
      have := (bitLen_spec n hn).2
      rw [h0] at this
      omega
    have e : (bitLen n : Int) - (bitLen d : Int) - 1 = ((bitLen n - 1 : Nat) : Int) - (bitLen d : Int) := by
      omega
    rw [e, two_zpow_natCast_sub, div_le_div_iff₀ (by positivity) hdq]
    calc (2 : ℚ) ^ (bitLen n - 1) * d ≤ n * d := by
          exact mul_le_mul_of_nonneg_right hn1q hdq.le
      _ ≤ n * 2 ^ bitLen d := by
          exact mul_le_mul_of_nonneg_left hd2q (by positivity)

theorem roundToF64_neg (neg : Bool) (n d : Nat) : (roundToF64 neg n d).neg = neg := by
  unfold roundToF64
  by_cases h : n = 0
  · simp only [h, if_true]
  · simp only [h, if_false]
    split_ifs <;> rfl

/-- The magnitude of a rounded fraction is the rounded significand times the
quantum of its binade. -/
theorem roundToF64_mag (neg : Bool) (n d : Nat) (hn : n ≠ 0) :
    (roundToF64 neg n d).mag =
      (roundHalfEven (n * pow2Den (floorLog2 n d - 52)) (d * pow2Num (floorLog2 n d - 52)) : ℚ)
        * (2 : ℚ) ^ (floorLog2 n d - 52) := by
  unfold roundToF64
  simp only [hn, if_false]
  split_ifs with h
  · rw [h]
    simp only [F64.mag]
    rw [zpow_add_one₀ (by norm_num : (2 : ℚ) ≠ 0)]
    push_cast
    ring
  · rfl

/-- Rounding to binary64 moves a fraction by at most half the quantum of its
binade. -/
theorem roundToF64_err (neg : Bool) (n d : Nat) (hn : 0 < n) (hd : 0 < d) :
    |(roundToF64 neg n d).mag - (n : ℚ) / (d : ℚ)|
      ≤ (2 : ℚ) ^ (floorLog2 n d - 52) / 2 := by
  rw [roundToF64_mag neg n d (by omega)]
  generalize floorLog2 n d - 52 = k
  have hD : 0 < d * pow2Num k := Nat.mul_pos hd (pow2Num_pos k)
  have h := roundHalfEven_err (n * pow2Den k) (d * pow2Num k) hD
  have hp : (0 : ℚ) < (2 : ℚ) ^ k := by positivity
  have hdq : (0 : ℚ) < d := by exact_mod_cast hd
  have hnum : (0 : ℚ) < pow2Num k := by exact_mod_cast pow2Num_pos k
  have hden : (0 : ℚ) < pow2Den k := by exact_mod_cast pow2Den_pos k
  have hx : ((n * pow2Den k : Nat) : ℚ) / ((d * pow2Num k : Nat) : ℚ)
      = (n : ℚ) / d / (2 : ℚ) ^ k := by
    rw [← pow2_ratio]
    push_cast
    field_simp
  rw [hx] at h
  generalize (roundHalfEven (n * pow2Den k) (d * pow2Num k) : ℚ) = m at h ⊢
  have e : m * (2 : ℚ) ^ k - (n : ℚ) / d = (m - (n : ℚ) / d / (2 : ℚ) ^ k) * (2 : ℚ) ^ k := by
    field_simp
    ring
  rw [e, abs_mul, abs_of_pos hp]
  calc |m - (n : ℚ) / d / (2 : ℚ) ^ k| * (2 : ℚ) ^ k ≤ 1 / 2 * (2 : ℚ) ^ k :=
        mul_le_mul_of_nonneg_right h hp.le
    _ = (2 : ℚ) ^ k / 2 := by ring

/-- The binade of a fraction below `2^(K+1)` is at most `K`. -/
theorem floorLog2_le_of_lt (n d : Nat) (hn : 0 < n) (hd : 0 < d) (K : Int)
    (h : (n : ℚ) / (d : ℚ) < (2 : ℚ) ^ (K + 1)) : floorLog2 n d ≤ K := by
  have h1 := floorLog2_le n d hn hd
  have h2 : (2 : ℚ) ^ floorLog2 n d < (2 : ℚ) ^ (K + 1) := lt_of_le_of_lt h1 h
  have h3 := (zpow_lt_zpow_iff_right₀ (by norm_num : (1 : ℚ) < 2)).mp h2
  omega

/-- Rounding to binary64 moves a fraction below `2^(K+1)` by at most
`2^(K-53)`. -/
theorem roundToF64_err_le (neg : Bool) (n d : Nat) (hn : 0 < n) (hd : 0 < d) (K : Int)
    (h : (n : ℚ) / (d : ℚ) < (2 : ℚ) ^ (K + 1)) :
    |(roundToF64 neg n d).mag - (n : ℚ) / (d : ℚ)| ≤ (2 : ℚ) ^ (K - 52) / 2 := by
  have h1 := roundToF64_err neg n d hn hd
  have h2 := floorLog2_le_of_lt n d hn hd K h
  have h3 : (2 : ℚ) ^ (floorLog2 n d - 52) ≤ (2 : ℚ) ^ (K - 52) :=
    zpow_le_zpow_right₀ (by norm_num) (by omega)
  linarith

/-- Rounding to binary64 leaves a whole number below `2^53` unchanged. -/
theorem roundToF64_exact (neg : Bool) (n d V : Nat) (hd : 0 < d) (hV : 0 < V)
    (hV53 : V < 2 ^ 53) (h : (n : ℚ) / (d : ℚ) = (V : ℚ)) :
    (roundToF64 neg n d).mag = (V : ℚ) := by
  have hdq : (0 : ℚ) < d := by exact_mod_cast hd
  have hnV : n = V * d := by
    have : (n : ℚ) = (V : ℚ) * d := by rw [← h]; field_simp
    exact_mod_cast this
  have hn : 0 < n := by rw [hnV]; exact Nat.mul_pos hV hd
  have hK : floorLog2 n d ≤ 52 := by
    apply floorLog2_le_of_lt n d hn hd 52
    rw [h]
    have : (V : ℚ) < (2 : ℚ) ^ (53 : Nat) := by exact_mod_cast hV53
    rw [show ((52 : Int) + 1) = ((53 : Nat) : Int) by norm_num, zpow_natCast]
    exact this
  rw [roundToF64_mag neg n d (by omega)]
  obtain ⟨k, hkdef⟩ : ∃ k, k = floorLog2 n d - 52 := ⟨_, rfl⟩
  rw [← hkdef]
  have hk : k ≤ 0 := by omega
  have hnum : pow2Num k = 1 := by
    unfold pow2Num
    rw [Int.toNat_eq_zero.mpr hk, pow_zero]
  have hden : (pow2Den k : ℚ) * (2 : ℚ) ^ k = 1 := by
    have := pow2_ratio k
    rw [hnum] at this
    have hpos : (0 : ℚ) < pow2Den k := by exact_mod_cast pow2Den_pos k
    rw [← this]
    field_simp
  rw [hnum, Nat.mul_one, hnV, show V * d * pow2Den k = (V * pow2Den k) * d by ring,
    roundHalfEven_exact _ _ hd]
  push_cast
  rw [mul_assoc, hden, mul_one]

/-! ## Theorems: the printed beat -/

theorem F64.toRat_eq_mag (a : F64) (h : a.neg = false) : a.toRat = a.mag := by
  unfold F64.toRat F64.mag
  rw [h]
  simp only [Bool.false_eq_true, if_false, one_mul]
  rw [mul_div_assoc, pow2_ratio]

theorem F64.mant_pos_of_mag_pos (a : F64) (h : 0 < a.mag) : 0 < a.mant := by
  unfold F64.mag at h
  by_contra hc
  have h0 : a.mant = 0 := by omega
  rw [h0] at h
  simp at h

/-- The fraction rounded by `F64.mul` is the product of the magnitudes. -/
theorem mul_ratio (a b : F64) :
    ((a.mant * b.mant * pow2Num (a.exp + b.exp) : Nat) : ℚ) / (pow2Den (a.exp + b.exp) : ℚ)
      = a.mag * b.mag := by
  unfold F64.mag
  push_cast
  rw [mul_div_assoc, pow2_ratio, zpow_add₀ (by norm_num : (2 : ℚ) ≠ 0)]
  ring

/-- The fraction rounded by `F64.div` is the quotient of the magnitudes. -/
theorem div_ratio (a b : F64) (hb : 0 < b.mant) :
    ((a.mant * pow2Num (a.exp - b.exp) : Nat) : ℚ) / ((b.mant * pow2Den (a.exp - b.exp) : Nat) : ℚ)
      = a.mag / b.mag := by
  unfold F64.mag
  have hbq : (0 : ℚ) < b.mant := by exact_mod_cast hb
  have hden : (0 : ℚ) < pow2Den (a.exp - b.exp) := by exact_mod_cast pow2Den_pos _
  have hp : (0 : ℚ) < (2 : ℚ) ^ b.exp := by positivity
  push_cast
  rw [mul_div_mul_comm, pow2_ratio, zpow_sub₀ (by norm_num : (2 : ℚ) ≠ 0)]
  field_simp

/-- The hundredths printed for a binary64 exceed a hundred times its magnitude
by at most one half. -/
theorem hundredths_le (a : F64) : (a.hundredths : ℚ) ≤ 100 * a.mag + 1 / 2 := by
  unfold F64.hundredths F64.mag
  have h := roundHalfEven_err (a.mant * 100 * pow2Num a.exp) (pow2Den a.exp) (pow2Den_pos _)
  have e : ((a.mant * 100 * pow2Num a.exp : Nat) : ℚ) / (pow2Den a.exp : ℚ)
      = 100 * ((a.mant : ℚ) * (2 : ℚ) ^ a.exp) := by
    push_cast
    rw [mul_div_assoc, pow2_ratio]
    ring
  rw [e] at h
  have := (abs_le.mp h).2
  linarith

theorem ofInt_pos (m : Int) (h0 : 0 < m) (h1 : m < 2 ^ 53) :
    (F64.ofInt m).mag = (m : ℚ) ∧ (F64.ofInt m).neg = false := by
  unfold F64.ofInt
  constructor
  · have hV : m.natAbs < 2 ^ 53 := by omega
    have := roundToF64_exact (decide (m < 0)) m.natAbs 1 m.natAbs (by decide) (by omega) hV
      (by simp)
    rw [this, Nat.cast_natAbs, abs_of_pos h0]
  · rw [roundToF64_neg]
    simp
    omega

theorem beatTime_zero :
    F64.div (F64.mul (F64.ofInt 0) (F64.ofInt 1000)) (F64.ofInt 86400) = ⟨false, 0, 0⟩ := by
  decide!

/-- The `float64` beat of a positive second of the day: it is not negative,
within `2^-44` of the exact quotient `m * 1000 / 86400`, and equal to it when
the quotient is a whole number. -/
theorem beat_of_second_mag (m : Int) (h0 : 0 < m) (h1 : m ≤ 86399) :
    (F64.div (F64.mul (F64.ofInt m) (F64.ofInt 1000)) (F64.ofInt 86400)).neg = false ∧
    |(F64.div (F64.mul (F64.ofInt m) (F64.ofInt 1000)) (F64.ofInt 86400)).mag
        - (m : ℚ) * 1000 / 86400| ≤ (2 : ℚ) ^ ((9 : Int) - 52) / 2 ∧
    (∀ V : Nat, 0 < V → (m : ℚ) * 1000 / 86400 = (V : ℚ) →
      (F64.div (F64.mul (F64.ofInt m) (F64.ofInt 1000)) (F64.ofInt 86400)).mag = (V : ℚ)) := by
  obtain ⟨ha, han⟩ := ofInt_pos m h0 (by omega)
  obtain ⟨hb, hbn⟩ := ofInt_pos 1000 (by decide) (by decide)
  obtain ⟨hc, hcn⟩ := ofInt_pos 86400 (by decide) (by decide)
  generalize F64.ofInt m = a at *
  generalize F64.ofInt 1000 = b at *
  generalize F64.ofInt 86400 = c at *
  have hmq : (0 : ℚ) < (m : ℚ) := by exact_mod_cast h0
  have hmq1 : (m : ℚ) ≤ 86399 := by exact_mod_cast h1
  have hp : (F64.mul a b).mag = (m : ℚ) * 1000 := by
    unfold F64.mul
    have hV : ((m.toNat * 1000 : Nat) : ℚ) = (m : ℚ) * 1000 := by
      push_cast
      rw [show ((m.toNat : Nat) : ℚ) = (((m.toNat : Nat) : Int) : ℚ) by norm_cast,
        Int.toNat_of_nonneg h0.le]
    rw [roundToF64_exact _ _ _ (m.toNat * 1000) (pow2Den_pos _) (by omega) (by omega)
      (by rw [mul_ratio, ha, hb, hV]; norm_num), hV]
  have hpn : (F64.mul a b).neg = false := by
    unfold F64.mul
    rw [roundToF64_neg, han, hbn]; rfl
  generalize F64.mul a b = p at *
  have hpm : 0 < p.mant := F64.mant_pos_of_mag_pos p (by rw [hp]; positivity)
  have hcm : 0 < c.mant := F64.mant_pos_of_mag_pos c (by rw [hc]; norm_num)
  have hratio := div_ratio p c hcm
  rw [hp, hc] at hratio
  simp only [Int.cast_ofNat] at hratio
  have hn : 0 < p.mant * pow2Num (p.exp - c.exp) := Nat.mul_pos hpm (pow2Num_pos _)
  have hd : 0 < c.mant * pow2Den (p.exp - c.exp) := Nat.mul_pos hcm (pow2Den_pos _)
  have hx : (m : ℚ) * 1000 / 86400 ≤ 86399000 / 86400 := by
    rw [div_le_div_iff₀ (by norm_num) (by norm_num)]
    linarith
  have herr := roundToF64_err_le (p.neg != c.neg) _ _ hn hd 9
    (by rw [hratio]; norm_num at hx ⊢; linarith)
  rw [hratio] at herr
  refine ⟨?_, herr, ?_⟩
  · unfold F64.div
    rw [roundToF64_neg, hpn, hcn]; rfl
  · intro V hV hVeq
    unfold F64.div
    refine roundToF64_exact _ _ _ V hd hV ?_ (by rw [hratio, hVeq])
    have : (V : ℚ) < 1000 := by rw [← hVeq]; norm_num at hx ⊢; linarith
    have : V < 1000 := by exact_mod_cast this
    omega

/-- The `float64` beat of a second of the day: not negative, at most 999.99,
and printed with at most 99999 hundredths. -/
theorem beat_of_second (m : Int) (h0 : 0 ≤ m) (h1 : m ≤ 86399) :
    (F64.div (F64.mul (F64.ofInt m) (F64.ofInt 1000)) (F64.ofInt 86400)).neg = false ∧
    (F64.div (F64.mul (F64.ofInt m) (F64.ofInt 1000)) (F64.ofInt 86400)).mag < 1000 ∧
    (F64.div (F64.mul (F64.ofInt m) (F64.ofInt 1000)) (F64.ofInt 86400)).hundredths ≤ 99999 := by
  rcases eq_or_lt_of_le h0 with hm | hm
  · subst hm
    rw [beatTime_zero]
    refine ⟨rfl, ?_, ?_⟩
    · simp [F64.mag]
    · decide
  obtain ⟨hqn, herr, -⟩ := beat_of_second_mag m hm h1
  have hh := hundredths_le (F64.div (F64.mul (F64.ofInt m) (F64.ofInt 1000)) (F64.ofInt 86400))
  generalize F64.div (F64.mul (F64.ofInt m) (F64.ofInt 1000)) (F64.ofInt 86400) = q at *
  have hmq1 : (m : ℚ) ≤ 86399 := by exact_mod_cast h1
  have hx : (m : ℚ) * 1000 / 86400 ≤ 86399000 / 86400 := by
    rw [div_le_div_iff₀ (by norm_num) (by norm_num)]
    linarith
  have hq : q.mag ≤ 86399000 / 86400 + (2 : ℚ) ^ ((9 : Int) - 52) / 2 := by
    have := (abs_le.mp herr).2
    linarith
  have hq1 : q.mag ≤ 99999 / 100 := by
    refine le_trans hq ?_
    norm_num
  refine ⟨hqn, by linarith, ?_⟩
  have h2 : (q.hundredths : ℚ) < ((100000 : Nat) : ℚ) := by
    push_cast
    linarith
  have h3 : q.hundredths < 100000 := by exact_mod_cast h2
  omega

/-- Conversion to `int64` of a non-negative binary64 is the floor of its
magnitude. -/
theorem toInt64_eq_floor (a : F64) (h : a.neg = false) :
    a.toInt64 = ((⌊a.mag⌋₊ : Nat) : Int) := by
  unfold F64.toInt64 F64.mag
  simp only [h, Bool.false_eq_true, if_false]
  congr 1
  rw [← pow2_ratio, ← mul_div_assoc, ← Nat.cast_mul, Nat.floor_div_eq_div]

/-- The whole part of the `float64` beat is the whole part of the exact
quotient: rounding never carries the beat across a whole number. -/
theorem beat_floor (m : Int) (h0 : 0 ≤ m) (h1 : m ≤ 86399) :
    (F64.div (F64.mul (F64.ofInt m) (F64.ofInt 1000)) (F64.ofInt 86400)).toInt64
      = m * 1000 / 86400 := by
  rcases eq_or_lt_of_le h0 with hm | hm
  · subst hm
    rw [beatTime_zero]
    decide
  obtain ⟨hqn, herr, hex⟩ := beat_of_second_mag m hm h1
  rw [toInt64_eq_floor _ hqn]
  generalize F64.div (F64.mul (F64.ofInt m) (F64.ofInt 1000)) (F64.ofInt 86400) = q at *
  obtain ⟨M, rfl⟩ : ∃ M : Nat, m = (M : Int) := ⟨m.toNat, (Int.toNat_of_nonneg h0).symm⟩
  have hM : M ≤ 86399 := by omega
  have hdm := Nat.div_add_mod (M * 1000) 86400
  have hq : ((M : Int) : ℚ) * 1000 / 86400
      = ((M * 1000 / 86400 : Nat) : ℚ) + ((M * 1000 % 86400 : Nat) : ℚ) / 86400 := by
    have : ((M * 1000 : Nat) : ℚ) = 86400 * ((M * 1000 / 86400 : Nat) : ℚ)
        + ((M * 1000 % 86400 : Nat) : ℚ) := by exact_mod_cast hdm.symm
    push_cast at this ⊢
    rw [this]
    field_simp
    ring
  have hgoal : ((M : Int) * 1000 / 86400) = ((M * 1000 / 86400 : Nat) : Int) := by
    norm_cast
  rw [hgoal]
  congr 1
  by_cases hr : M * 1000 % 86400 = 0
  · have hk : 0 < M * 1000 / 86400 := by omega
    rw [hr] at hq
    simp only [Nat.cast_zero, zero_div, add_zero] at hq
    rw [hex _ hk hq, Nat.floor_natCast]
  · have hr1 : 200 ≤ M * 1000 % 86400 := by omega
    have hr2 : M * 1000 % 86400 ≤ 86200 := by omega
    have hr1q : (200 : ℚ) ≤ ((M * 1000 % 86400 : Nat) : ℚ) := by exact_mod_cast hr1
    have hr2q : ((M * 1000 % 86400 : Nat) : ℚ) ≤ 86200 := by exact_mod_cast hr2
    have hlo : (200 : ℚ) / 86400 ≤ ((M * 1000 % 86400 : Nat) : ℚ) / 86400 :=
      div_le_div_of_nonneg_right hr1q (by norm_num)
    have hhi : ((M * 1000 % 86400 : Nat) : ℚ) / 86400 ≤ 86200 / 86400 :=
      div_le_div_of_nonneg_right hr2q (by norm_num)
    have h43 : (2 : ℚ) ^ ((9 : Int) - 52) / 2 < 1 / 1000 := by norm_num
    obtain ⟨e1, e2⟩ := abs_le.mp herr
    rw [hq] at e1 e2
    rw [Nat.floor_eq_iff (by unfold F64.mag; positivity)]
    constructor
    · norm_num at hlo ⊢; linarith
    · norm_num at hhi ⊢; linarith

/-- The `%06.2f` rendering of a non-negative binary64 printed with at most
99999 hundredths: three integer digits, a point, two fractional digits. -/
theorem fmtF062_digits (a : F64) (hneg : a.neg = false) (h : a.hundredths ≤ 99999) :
    fmtF062 a =
      [digitChar (a.hundredths / 10000), digitChar (a.hundredths / 1000 % 10),
        digitChar (a.hundredths / 100 % 10), '.',
        digitChar (a.hundredths / 10 % 10), digitChar (a.hundredths % 10)] := by
  unfold fmtF062
  simp only [hneg, Bool.false_eq_true, if_false]
  generalize a.hundredths = x at h
  have h2 := zeroPad2_digits (x % 100) (by omega)
  have h3 := (zeroPad3_digits (x / 100) (by omega)).1
  rw [h2, List.append_assoc]
  have := zeroPad_append 3 (natDigits (x / 100))
    (['.'] ++ [digitChar (x % 100 / 10), digitChar (x % 100 % 10)])
  simp only [List.length_append, List.length_singleton, List.length_cons, List.length_nil] at this
  rw [this, h3]
  have e1 : x / 100 / 100 = x / 10000 := by omega
  have e2 : x / 100 / 10 % 10 = x / 1000 % 10 := by omega
  have e3 : x % 100 / 10 = x / 10 % 10 := by omega
  have e4 : x % 100 % 10 = x % 10 := by omega
  rw [e1, e2, e3, e4]
  rfl

/-! ## Theorems: the beat printer and the beat ranges -/

/-- The line `printBeatTime` prints while the clock shows an epoch second from
`-3600` on (and `utcSeconds + 3600` does not overflow): `@`, three integer
digits, a point and two fractional digits, showing at most 99999 hundredths;
the `float64` beat is not negative and below 1000. -/
theorem printBeatTime_digits (env : Env) (hs : -3600 ≤ unixSec (env.clock 0))
    (hs1 : unixSec (env.clock 0) < 2 ^ 63 - 3600) :
    (beatTime (unixSec (env.clock 0))).hundredths ≤ 99999 ∧
      (printBeatTime env).stdout =
        [String.mk ['@', digitChar ((beatTime (unixSec (env.clock 0))).hundredths / 10000),
          digitChar ((beatTime (unixSec (env.clock 0))).hundredths / 1000 % 10),
          digitChar ((beatTime (unixSec (env.clock 0))).hundredths / 100 % 10), '.',
          digitChar ((beatTime (unixSec (env.clock 0))).hundredths / 10 % 10),
          digitChar ((beatTime (unixSec (env.clock 0))).hundredths % 10), '\n']] ∧
      0 ≤ (beatTime (unixSec (env.clock 0))).toRat ∧
      (beatTime (unixSec (env.clock 0))).toRat < 1000 := by
  simp only [printBeatTime, outWrite, enter, finish]
  generalize unixSec (env.clock 0) = s at hs hs1 ⊢
  have hm := secondsSinceMidnightBMT_of_nonneg s hs hs1
  obtain ⟨hneg, hmag, hh⟩ : (beatTime s).neg = false ∧ (beatTime s).mag < 1000 ∧
      (beatTime s).hundredths ≤ 99999 :=
    beat_of_second (secondsSinceMidnightBMT s) (by rw [hm]; omega) (by rw [hm]; omega)
  refine ⟨hh, ?_, ?_, ?_⟩
  · simp only [beatLine, fmtF062_digits (beatTime s) hneg hh]
    rfl
  · rw [F64.toRat_eq_mag _ hneg]
    unfold F64.mag
    positivity
  · rw [F64.toRat_eq_mag _ hneg]
    exact hmag

/-- C5 (the code at the failing input): with the clock at the epoch second
`-5000` (1969-12-31 22:36:40 UTC) `printBeatTime` computes `-1400` for the
seconds since midnight in UTC+1, where `85000` seconds have passed since that
midnight, and prints the negative beat `@-16.20`, which is neither in
`[0.00, 999.99]` nor of the shape `@DDD.DD`. -/
theorem beat_negative_before_epoch :
    unixSec (preEpochEnv.clock 0) = -5000 ∧
    secondsSinceMidnightBMT (-5000) = -1400 ∧
    (-5000 + 3600 : Int) % 86400 = 85000 ∧
    (beatTime (-5000)).neg = true ∧
    (printBeatTime preEpochEnv).stdout = ["@-16.20\n"] := by
  decide!

/-- C7: for every beat `b` in `[0, 998]` and every environment, the line
`convertBeatToLocalRange` prints for `@b` is the line of the spec for the range
from beat boundary `b` to beat boundary `b + 1`, and the line it prints for
`@(b+1)` is the line for the range from boundary `b + 1` to boundary `b + 2`:
the end of one range and the start of the next are the same instant (and so the
same printed `HH:MM:SS.mmm`), boundary `k` lying exactly `k * 86.4` seconds
after midnight in UTC+1, each range 86.4 s long. -/
theorem beat_ranges_contiguous (env : Env) (b : Nat) (hb : b ≤ 998) :
    (convertBeatToLocalRange env ("@" ++ toString b)).stdout
      = [rangeLine env b (beatBoundary (env.clock 1) b) (beatBoundary (env.clock 1) (b + 1))] ∧
    (convertBeatToLocalRange env ("@" ++ toString (b + 1))).stdout
      = [rangeLine env (b + 1) (beatBoundary (env.clock 1) (b + 1))
          (beatBoundary (env.clock 1) (b + 2))] ∧
    beatBoundary (env.clock 1) (b + 1) - beatBoundary (env.clock 1) b = 86400000000 ∧
    beatBoundary (env.clock 1) (b + 2) - beatBoundary (env.clock 1) (b + 1) = 86400000000 := by
  refine ⟨?_, ?_, ?_, ?_⟩
  · rw [convertBeat_decimal env b (by omega)]
  · rw [convertBeat_decimal env (b + 1) (by omega)]
    have e1 : ((b + 1 : Nat) : Int) = (b : Int) + 1 := by push_cast; ring
    have e2 : (b : Int) + 1 + 1 = (b : Int) + 2 := by ring
    simp only [e1, e2]
  · unfold beatBoundary; ring
  · unfold beatBoundary; ring

/-- Witness for C7: beats 499 and 500 in the sample environment. -/
theorem beat_ranges_contiguous_witness :
    (convertBeatToLocalRange sampleEnv ("@" ++ toString 499)).stdout
      = [rangeLine sampleEnv 499 (beatBoundary (sampleEnv.clock 1) 499)
          (beatBoundary (sampleEnv.clock 1) (499 + 1))] :=
  (beat_ranges_contiguous sampleEnv 499 (by decide)).1

/-- C8: the line `convertBeatToLocalRange` prints for `@0` shows a range that
starts exactly at midnight of the current day in UTC+1, and the line it prints
for `@999` shows a range that ends exactly `86400` seconds later, at midnight
of the following day in UTC+1: the `float64` end offset `1000 * 86.4` is
exactly `86400` seconds.  That midnight is a whole second, a multiple of a day
after the shift by one hour, and its day contains the current instant. -/
theorem beat_day_span (env : Env) :
    (convertBeatToLocalRange env "@0").stdout
      = [rangeLine env 0 (bmtDayStart (env.clock 1)) (bmtDayStart (env.clock 1) + 86400000000)] ∧
    (convertBeatToLocalRange env "@999").stdout
      = [rangeLine env 999 (bmtDayStart (env.clock 1) + 999 * 86400000000)
          (bmtDayStart (env.clock 1) + 86400 * 1000000000)] ∧
    beatOffsetNs (999 + 1) = 86400 * 1000000000 ∧
    bmtDayStart (bmtDayStart (env.clock 1) + 86400 * 1000000000)
      = bmtDayStart (env.clock 1) + 86400 * 1000000000 ∧
    (bmtDayStart (env.clock 1) / 1000000000 + 3600) % 86400 = 0 ∧
    bmtDayStart (env.clock 1) % 1000000000 = 0 ∧
    bmtDayStart (env.clock 1) ≤ env.clock 1 ∧
    env.clock 1 < bmtDayStart (env.clock 1) + 86400 * 1000000000 := by
  have h0 := convertBeat_decimal env 0 (by decide)
  have h999 := convertBeat_decimal env 999 (by decide)
  have e0 : ("@" ++ toString 0 : String) = "@0" := by decide
  have e999 : ("@" ++ toString 999 : String) = "@999" := by decide
  rw [e0] at h0
  rw [e999] at h999
  have e1 : beatOffsetNs (999 + 1) = 86400 * 1000000000 := by
    rw [beatOffsetNs_exact_int (999 + 1) (by decide) (by decide)]
    decide
  refine ⟨?_, ?_, e1, ?_, ?_, ?_, ?_, ?_⟩
  · rw [h0]
    simp only [beatBoundary]
    norm_num
  · rw [h999]
    simp only [beatBoundary]
    norm_num
  all_goals (unfold bmtDayStart; omega)
/-! ## Theorems: the two beat computations -/

/-- The hundredths printed for a binary64 fall short of a hundred times its
magnitude by at most one half. -/
theorem hundredths_ge (a : F64) : 100 * a.mag - 1 / 2 ≤ (a.hundredths : ℚ) := by
  unfold F64.hundredths F64.mag
  have h := roundHalfEven_err (a.mant * 100 * pow2Num a.exp) (pow2Den a.exp) (pow2Den_pos _)
  have e : ((a.mant * 100 * pow2Num a.exp : Nat) : ℚ) / (pow2Den a.exp : ℚ)
      = 100 * ((a.mant : ℚ) * (2 : ℚ) ^ a.exp) := by
    push_cast
    rw [mul_div_assoc, pow2_ratio]
    ring
  rw [e] at h
  have := (abs_le.mp h).1
  linarith

/-- The hundredths printed for a non-negative binary64 whose whole part is `b`
lie between `100 * b` and `100 * (b + 1)`. -/
theorem hundredths_of_floor (a : F64) (hneg : a.neg = false) (b : Nat)
    (hb : a.toInt64 = (b : Int)) :
    100 * b ≤ a.hundredths ∧ a.hundredths ≤ 100 * b + 100 := by
  rw [toInt64_eq_floor a hneg] at hb
  have hb1 : ⌊a.mag⌋₊ = b := by exact_mod_cast hb
  have hmag : (0 : ℚ) ≤ a.mag := by unfold F64.mag; positivity
  have hlo : (b : ℚ) ≤ a.mag := by
    rw [← hb1]
    exact Nat.floor_le hmag
  have hhi : a.mag < (b : ℚ) + 1 := by
    rw [← hb1]
    exact Nat.lt_floor_add_one _
  have h1 := hundredths_ge a
  have h2 := hundredths_le a
  constructor
  · by_contra hc
    have hc1 : a.hundredths + 1 ≤ 100 * b := by omega
    have hc2 : ((a.hundredths + 1 : Nat) : ℚ) ≤ ((100 * b : Nat) : ℚ) := by exact_mod_cast hc1
    push_cast at hc2
    linarith
  · by_contra hc
    have hc1 : 100 * b + 101 ≤ a.hundredths := by omega
    have hc2 : ((100 * b + 101 : Nat) : ℚ) ≤ (a.hundredths : ℚ) := by exact_mod_cast hc1
    push_cast at hc2
    linarith

/-- C10 (as amended): let the clock show an instant whose epoch second `s` is
not negative and for which `s + 3600` fits `int64`, and let a later reading of
the clock fall on the same day in UTC+1.  With `m = (s + 3600) mod 86400` the
value `printBeatTime` computes and `b = floor(m * 1000 / 86400)`: `b` lies in
`[0, 999]` and is the whole part of the `float64` beat; `printBeatTime` prints
`@DDD.DD` showing between `100 * b` and `100 * b + 100` hundredths; the midnight
in UTC+1 is the instant `s - m`; the line `convertBeatToLocalRange` prints for
`@b` at the later reading is the line for the range from `midnight + b * 86.4 s`
to `midnight + (b + 1) * 86.4 s`; the start of the second `s` lies in that
half-open range; the instant itself is not before the start of the range and
less than one second past its end. -/
theorem beat_in_own_range (env : Env)
    (hs0 : 0 ≤ unixSec (env.clock 0)) (hs1 : unixSec (env.clock 0) < 2 ^ 63 - 3600)
    (hday : bmtDayStart (env.clock 1) = bmtDayStart (env.clock 0)) :
    ∃ b h : Nat, b ≤ 999 ∧
      secondsSinceMidnightBMT (unixSec (env.clock 0)) = (unixSec (env.clock 0) + 3600) % 86400 ∧
      (b : Int) = secondsSinceMidnightBMT (unixSec (env.clock 0)) * 1000 / 86400 ∧
      (beatTime (unixSec (env.clock 0))).toInt64 = (b : Int) ∧
      100 * b ≤ h ∧ h ≤ 100 * b + 100 ∧ h ≤ 99999 ∧
      (printBeatTime env).stdout =
        [String.mk ['@', digitChar (h / 10000), digitChar (h / 1000 % 10),
          digitChar (h / 100 % 10), '.', digitChar (h / 10 % 10), digitChar (h % 10), '\n']] ∧
      bmtDayStart (env.clock 0)
        = (unixSec (env.clock 0) - secondsSinceMidnightBMT (unixSec (env.clock 0))) * 1000000000 ∧
      (convertBeatToLocalRange env ("@" ++ toString b)).stdout
        = [rangeLine env b (bmtDayStart (env.clock 0) + 86400000000 * (b : Int))
            (bmtDayStart (env.clock 0) + 86400000000 * ((b : Int) + 1))] ∧
      bmtDayStart (env.clock 0) + 86400000000 * (b : Int) ≤ unixSec (env.clock 0) * 1000000000 ∧
      unixSec (env.clock 0) * 1000000000
        < bmtDayStart (env.clock 0) + 86400000000 * ((b : Int) + 1) ∧
      bmtDayStart (env.clock 0) + 86400000000 * (b : Int) ≤ env.clock 0 ∧
      env.clock 0 < bmtDayStart (env.clock 0) + 86400000000 * ((b : Int) + 1) + 1000000000 := by
  have hm := secondsSinceMidnightBMT_of_nonneg (unixSec (env.clock 0)) (by omega) hs1
  have hfloor : (beatTime (unixSec (env.clock 0))).toInt64
      = secondsSinceMidnightBMT (unixSec (env.clock 0)) * 1000 / 86400 :=
    beat_floor _ (by rw [hm]; omega) (by rw [hm]; omega)
  obtain ⟨hneg, -, -⟩ : (beatTime (unixSec (env.clock 0))).neg = false ∧
      (beatTime (unixSec (env.clock 0))).mag < 1000 ∧
      (beatTime (unixSec (env.clock 0))).hundredths ≤ 99999 :=
    beat_of_second (secondsSinceMidnightBMT (unixSec (env.clock 0)))
      (by rw [hm]; omega) (by rw [hm]; omega)
  obtain ⟨hh, hout, -, -⟩ := printBeatTime_digits env (by omega) hs1
  obtain ⟨b, hbdef⟩ : ∃ b : Nat,
      (b : Int) = secondsSinceMidnightBMT (unixSec (env.clock 0)) * 1000 / 86400 :=
    ⟨(secondsSinceMidnightBMT (unixSec (env.clock 0)) * 1000 / 86400).toNat,
      Int.toNat_of_nonneg (by rw [hm]; omega)⟩
  have hb : b ≤ 999 := by rw [hm] at hbdef; omega
  have hfb : (beatTime (unixSec (env.clock 0))).toInt64 = (b : Int) := by rw [hfloor, hbdef]
  obtain ⟨hlo, hhi⟩ := hundredths_of_floor _ hneg b hfb
  have hconv := convertBeat_decimal env b hb
  refine ⟨b, (beatTime (unixSec (env.clock 0))).hundredths, hb, hm, hbdef, hfb, hlo, hhi, hh,
    hout, ?_, ?_, ?_, ?_, ?_, ?_⟩
  · rw [hm]; unfold bmtDayStart unixSec nsPerSec; omega
  · rw [hconv]
    simp only [beatBoundary, hday]
  all_goals
    rw [hm] at hbdef
    revert hbdef hs0
    unfold bmtDayStart unixSec nsPerSec
    intro hbdef hs0
    omega

/-- Witness for C10 (as amended): the sample clock, whose two readings lie on
the same day in UTC+1. -/
theorem beat_in_own_range_witness :
    0 ≤ unixSec (sampleEnv.clock 0) ∧ unixSec (sampleEnv.clock 0) < 2 ^ 63 - 3600 ∧
    bmtDayStart (sampleEnv.clock 1) = bmtDayStart (sampleEnv.clock 0) ∧
    ∃ b h : Nat, b ≤ 999 ∧
      (beatTime (unixSec (sampleEnv.clock 0))).toInt64 = (b : Int) ∧ 100 * b ≤ h ∧
      (printBeatTime sampleEnv).stdout =
        [String.mk ['@', digitChar (h / 10000), digitChar (h / 1000 % 10),
          digitChar (h / 100 % 10), '.', digitChar (h / 10 % 10), digitChar (h % 10), '\n']] ∧
      (convertBeatToLocalRange sampleEnv ("@" ++ toString b)).stdout
        = [rangeLine sampleEnv b (bmtDayStart (sampleEnv.clock 0) + 86400000000 * (b : Int))
            (bmtDayStart (sampleEnv.clock 0) + 86400000000 * ((b : Int) + 1))] := by
  refine ⟨by decide, by decide, by decide, ?_⟩
  obtain ⟨b, h, h1, -, -, h4, h5, -, -, h8, -, h10, -⟩ :=
    beat_in_own_range sampleEnv (by decide) (by decide) (by decide)
  exact ⟨b, h, h1, h4, h5, h8, h10⟩

/-- C10 (counterexample to the claim as stated): the instant 82886.7 s after
the epoch (1970-01-01 23:01:26.7 UTC).  Its epoch second is `s = 82886`, so
`m = 86` and `b = floor(86000 / 86400) = 0`, and the `float64` beat has whole
part 0; the range that `convertBeatToLocalRange` computes and prints for `@0`
at that instant ends 86.4 s after midnight in UTC+1, which is 0.3 s before the
instant: the instant lies in the range of beat 1, not in that of beat 0. -/
theorem beat_instant_outside_own_range :
    subSecondEnv.clock 0 = 82886700000000 ∧
    unixSec (subSecondEnv.clock 0) = 82886 ∧
    0 ≤ unixSec (subSecondEnv.clock 0) ∧
    secondsSinceMidnightBMT 82886 = 86 ∧
    (86 * 1000 / 86400 : Int) = 0 ∧
    (beatTime 82886).toInt64 = 0 ∧
    (printBeatTime subSecondEnv).stdout = ["@001.00\n"] ∧
    midnightBMT (subSecondEnv.clock 1) = (82886 - 86) * 1000000000 ∧
    beatRange (subSecondEnv.clock 1) 0 = (82800000000000, 82886400000000) ∧
    ¬ (subSecondEnv.clock 0 < (beatRange (subSecondEnv.clock 1) 0).2) ∧
    (convertBeatToLocalRange subSecondEnv "@0").stdout
      = ["@0 corresponds to the time range 18:00:00.000 - 18:01:26.400 EST (on 1970-01-01)\n"] ∧
    (convertBeatToLocalRange subSecondEnv "@1").stdout
      = ["@1 corresponds to the time range 18:01:26.400 - 18:02:52.800 EST (on 1970-01-01)\n"] := by
  decide!
/-! ## Theorems: the epoch conversion -/

/-- Leap days up to the start of year `y`, in closed form. -/
theorem yearLength_eq (y : Int) :
    yearLength y = 365 + ((y / 4 - y / 100 + y / 400) - ((y - 1) / 4 - (y - 1) / 100 + (y - 1) / 400)) := by
  unfold yearLength isLeapYear
  by_cases h4 : y % 4 = 0 <;> by_cases h100 : y % 100 = 0 <;> by_cases h400 : y % 400 = 0 <;>
    simp [h4, h100, h400] <;> omega

theorem yearLength_sum (a : Int) (n : Nat) :
    ((List.range n).map (fun (k : Nat) => yearLength (a + (k : Int)))).sum
      = 365 * (n : Int) + (((a + n - 1) / 4 - (a + n - 1) / 100 + (a + n - 1) / 400)
          - ((a - 1) / 4 - (a - 1) / 100 + (a - 1) / 400)) := by
  induction n with
  | zero => simp
  | succ n ih =>
    rw [List.range_succ, List.map_append, List.sum_append, ih, List.map_singleton,
      List.sum_singleton, yearLength_eq]
    push_cast
    have e : a + ((n : Int) + 1) - 1 = a + n := by ring
    rw [e]
    have e2 : a + (n : Int) - 1 = a + n - 1 := rfl
    ring

theorem daysBeforeYear_eq (y : Int) :
    daysBeforeYear y = 365 * (y - 1970) + ((y - 1) / 4 - (y - 1) / 100 + (y - 1) / 400) - 477 := by
  unfold daysBeforeYear
  split_ifs with h
  · rw [yearLength_sum, Int.toNat_of_nonneg (by omega)]
    have e : (1970 : Int) + (y - 1970) - 1 = y - 1 := by ring
    rw [e]
    omega
  · rw [yearLength_sum, Int.toNat_of_nonneg (by omega)]
    have e : y + (1970 - y) - 1 = (1969 : Int) := by ring
    rw [e]
    omega

theorem daysBeforeMonth_eq (y m : Int) (h1 : 1 ≤ m) (h2 : m ≤ 12) :
    daysBeforeMonth y m =
      (if m ≤ 2 then 31 * (m - 1)
        else (153 * (m - 3) + 2) / 5 + 59 + (if isLeapYear y then 1 else 0)) := by
  have hm : m = 1 ∨ m = 2 ∨ m = 3 ∨ m = 4 ∨ m = 5 ∨ m = 6 ∨ m = 7 ∨ m = 8 ∨ m = 9 ∨ m = 10
      ∨ m = 11 ∨ m = 12 := by omega
  rcases hm with h | h | h | h | h | h | h | h | h | h | h | h <;> subst h <;>
    by_cases hl : isLeapYear y = true <;>
    simp [daysBeforeMonth, daysInMonth, List.range_succ, hl]

/-- The day number that the rules of the calendar give a date is the one
`time.Date` computes. -/
theorem gregorianDay_eq (y m d : Int) (h1 : 1 ≤ m) (h2 : m ≤ 12) :
    gregorianDay y m d = daysFromCivil y m d := by
  unfold gregorianDay
  rw [daysBeforeYear_eq, daysBeforeMonth_eq y m h1 h2]
  unfold daysFromCivil isLeapYear
  by_cases hm : m ≤ 2
  · have hm2 : ¬ (2 < m) := by omega
    simp only [hm, hm2, if_true, if_false]
    omega
  · have hm2 : 2 < m := by omega
    simp only [hm, hm2, if_true, if_false]
    by_cases h4 : y % 4 = 0 <;> by_cases h100 : y % 100 = 0 <;> by_cases h400 : y % 400 = 0 <;>
      simp [h4, h100, h400] <;> omega

theorem doy_leap (doe yoe : Int) (h0 : 0 ≤ doe) (h1 : doe ≤ 146096)
    (hy : yoe = (doe - doe / 1460 + doe / 36524 - doe / 146096) / 365)
    (h365 : doe - (365 * yoe + yoe / 4 - yoe / 100) = 365) :
    (yoe + 1) % 4 = 0 ∧ ((yoe + 1) % 100 ≠ 0 ∨ yoe = 399) := by
  have hd : doe / 36524 = 0 ∨ doe / 36524 = 1 ∨ doe / 36524 = 2 ∨ doe / 36524 = 3
      ∨ doe / 36524 = 4 := by omega
  have hg : yoe / 100 = 0 ∨ yoe / 100 = 1 ∨ yoe / 100 = 2 ∨ yoe / 100 = 3 := by omega
  have hc : doe / 146096 = 0 ∨ doe / 146096 = 1 := by omega
  have hr : yoe % 4 = 0 ∨ yoe % 4 = 1 ∨ yoe % 4 = 2 ∨ yoe % 4 = 3 := by omega
  rcases hd with hd | hd | hd | hd | hd <;> rcases hg with hg | hg | hg | hg <;>
    rcases hc with hc | hc <;> rcases hr with hr | hr | hr | hr <;> omega

/-- The date that `Time.Date` gives a day number is a date of the calendar:
the month is 1 to 12 and the day is 1 to the length of that month. -/
theorem civilFromDays_valid (z : Int) :
    1 ≤ (civilFromDays z).2.1 ∧ (civilFromDays z).2.1 ≤ 12 ∧
      1 ≤ (civilFromDays z).2.2 ∧
      (civilFromDays z).2.2 ≤ daysInMonth (civilFromDays z).1 (civilFromDays z).2.1 := by
  obtain ⟨hm1, hm2, hd1, -⟩ := civilFromDays_month_day z
  refine ⟨hm1, hm2, hd1, ?_⟩
  have hdoe0 : 0 ≤ (z + 719468) % 146097 := Int.emod_nonneg _ (by decide)
  have hdoe1 : (z + 719468) % 146097 < 146097 := Int.emod_lt_of_pos _ (by decide)
  simp only [civilFromDays]
  generalize (z + 719468) % 146097 = doe at *
  generalize (z + 719468) / 146097 = era at *
  obtain ⟨hy0, hy1⟩ := yoe_bounds doe hdoe0 (by omega)
  obtain ⟨hd0, hd1⟩ := doy_bounds doe _ hdoe0 (by omega) rfl
  have hleap := doy_leap doe _ hdoe0 (by omega) rfl
  generalize (doe - doe / 1460 + doe / 36524 - doe / 146096) / 365 = yoe at *
  generalize doe - (365 * yoe + yoe / 4 - yoe / 100) = doy at *
  have hmp : (5 * doy + 2) / 153 = 0 ∨ (5 * doy + 2) / 153 = 1 ∨ (5 * doy + 2) / 153 = 2 ∨
      (5 * doy + 2) / 153 = 3 ∨ (5 * doy + 2) / 153 = 4 ∨ (5 * doy + 2) / 153 = 5 ∨
      (5 * doy + 2) / 153 = 6 ∨ (5 * doy + 2) / 153 = 7 ∨ (5 * doy + 2) / 153 = 8 ∨
      (5 * doy + 2) / 153 = 9 ∨ (5 * doy + 2) / 153 = 10 ∨ (5 * doy + 2) / 153 = 11 := by omega
  rcases hmp with h | h | h | h | h | h | h | h | h | h | h | h <;> rw [h] <;>
    simp only [daysInMonth] <;> norm_num
  all_goals try omega
  -- February
  unfold isLeapYear
  by_cases h365 : doy = 365
  · obtain ⟨l1, l2⟩ := hleap h365
    have e4 : (yoe + era * 400 + 1) % 4 = 0 := by omega
    have e100 : (yoe + era * 400 + 1) % 100 ≠ 0 ∨ (yoe + era * 400 + 1) % 400 = 0 := by omega
    rcases e100 with e | e <;> simp [e4, e] <;> omega
  · split_ifs <;> omega

/-- The year that `Time.Date` gives a day number from 1 January 0000 to
31 December 9999 has four digits. -/
theorem civilFromDays_year (z : Int) (h0 : -719528 ≤ z) (h1 : z ≤ 2932896) :
    0 ≤ (civilFromDays z).1 ∧ (civilFromDays z).1 ≤ 9999 := by
  obtain ⟨hm1, hm2, hd1, hd2⟩ := civilFromDays_valid z
  have hz := daysFromCivil_civilFromDays z
  rw [← gregorianDay_eq _ _ _ hm1 hm2] at hz
  unfold gregorianDay at hz
  rw [daysBeforeYear_eq, daysBeforeMonth_eq _ _ hm1 hm2] at hz
  generalize (civilFromDays z).1 = y at *
  generalize (civilFromDays z).2.1 = m at *
  generalize (civilFromDays z).2.2 = d at *
  have hyl := yearLength_eq y
  have hb : 0 ≤ (if m ≤ 2 then 31 * (m - 1)
      else (153 * (m - 3) + 2) / 5 + 59 + (if isLeapYear y then 1 else 0)) ∧
      (if m ≤ 2 then 31 * (m - 1)
        else (153 * (m - 3) + 2) / 5 + 59 + (if isLeapYear y then 1 else 0)) + d
          ≤ yearLength y := by
    have hm : m = 1 ∨ m = 2 ∨ m = 3 ∨ m = 4 ∨ m = 5 ∨ m = 6 ∨ m = 7 ∨ m = 8 ∨ m = 9 ∨ m = 10
        ∨ m = 11 ∨ m = 12 := by omega
    revert hd2
    unfold daysInMonth yearLength
    rcases hm with h | h | h | h | h | h | h | h | h | h | h | h <;> subst h <;>
      by_cases hl : isLeapYear y = true <;> simp [hl] <;> omega
  generalize (if m ≤ 2 then 31 * (m - 1)
      else (153 * (m - 3) + 2) / 5 + 59 + (if isLeapYear y then 1 else 0)) = dbm at *
  generalize yearLength y = yl at *
  have e1 : (y - 1) / 100 = (y - 1) / 4 / 25 := by omega
  have e2 : (y - 1) / 400 = (y - 1) / 4 / 25 / 4 := by omega
  have e3 : y / 100 = y / 4 / 25 := by omega
  have e4 : y / 400 = y / 4 / 25 / 4 := by omega
  constructor
  · by_contra hc
    omega
  · by_contra hc
    omega

/-- The `YYYY-MM-DD HH:MM:SS ZONE` rendering of broken-down fields in range,
digit by digit. -/
theorem fmtDateTimeZone_digits (c : Civil) (hy : 0 ≤ c.year ∧ c.year ≤ 9999)
    (hm : 0 ≤ c.month ∧ c.month ≤ 99) (hd : 0 ≤ c.day ∧ c.day ≤ 99)
    (hh : 0 ≤ c.hour ∧ c.hour ≤ 99) (hmi : 0 ≤ c.minute ∧ c.minute ≤ 99)
    (hs : 0 ≤ c.second ∧ c.second ≤ 99) (hz : c.zoneName ≠ "") :
    String.mk (fmtDateTimeZone c) ++ "\n"
      = timestampLine c.year c.month c.day c.hour c.minute c.second c.zoneName := by
  unfold fmtDateTimeZone fmtDate fmtClock fmtZone timestampLine
  rw [appendInt_four _ hy.1 hy.2, appendInt_two _ hm.1 hm.2, appendInt_two _ hd.1 hd.2,
    appendInt_two _ hh.1 hh.2, appendInt_two _ hmi.1 hmi.2, appendInt_two _ hs.1 hs.2]
  simp only [hz, ne_eq, not_false_eq_true, if_true]
  apply String.ext
  simp [List.append_assoc]

/-- C9: for every input that parses to an integer `e` (negative values and
zero included) whose local date lies in the years 0000 to 9999, in a zone that
has an abbreviation, the line `convertEpochToLocal` prints is
`YYYY-MM-DD HH:MM:SS ZONE` and a newline, digit by digit, for fields that form
a date and time of the Gregorian calendar (month 1 to 12, day 1 to the length
of that month, hour below 24, minute and second below 60), `ZONE` being the
abbreviation of the local zone at `e`; and read by the rules of the calendar in
that zone, whose offset from UTC is `(env.zone e).2`, the printed fields denote
the epoch second `e` again. -/
theorem epoch_roundtrip (env : Env) (x : String) (e : Int)
    (hx : parseInt x.data = .ok e)
    (hlo : -62167219200 ≤ e + (env.zone e).2) (hhi : e + (env.zone e).2 ≤ 253402300799)
    (hz : (env.zone e).1 ≠ "") :
    ∃ y m d h mi s : Int,
      (0 ≤ y ∧ y ≤ 9999) ∧ (1 ≤ m ∧ m ≤ 12) ∧ (1 ≤ d ∧ d ≤ daysInMonth y m) ∧
      (0 ≤ h ∧ h ≤ 23) ∧ (0 ≤ mi ∧ mi ≤ 59) ∧ (0 ≤ s ∧ s ≤ 59) ∧
      (convertEpochToLocal env x).stdout = [timestampLine y m d h mi s (env.zone e).1] ∧
      (convertEpochToLocal env x).exitCode = 0 ∧
      gregorianEpoch y m d h mi s (env.zone e).2 = e := by
  obtain ⟨hm1, hm2, hd1, hd2⟩ := civilFromDays_valid ((e + (env.zone e).2) / 86400)
  obtain ⟨hy1, hy2⟩ := civilFromDays_year ((e + (env.zone e).2) / 86400) (by omega) (by omega)
  have hd3 : (civilFromDays ((e + (env.zone e).2) / 86400)).2.2 ≤ 31 := by
    refine le_trans hd2 ?_
    unfold daysInMonth
    split_ifs <;> decide
  have hc : localCivil env e =
      { year := (civilFromDays ((e + (env.zone e).2) / 86400)).1,
        month := (civilFromDays ((e + (env.zone e).2) / 86400)).2.1,
        day := (civilFromDays ((e + (env.zone e).2) / 86400)).2.2,
        hour := (e + (env.zone e).2) % 86400 / 3600,
        minute := (e + (env.zone e).2) % 86400 % 3600 / 60,
        second := (e + (env.zone e).2) % 86400 % 60,
        nano := nanoOf (e * nsPerSec), zoneName := (env.zone e).1,
        zoneOffset := (env.zone e).2 } := by
    simp only [localCivil, civilOf, unixSec_mul]
  refine ⟨(civilFromDays ((e + (env.zone e).2) / 86400)).1,
    (civilFromDays ((e + (env.zone e).2) / 86400)).2.1,
    (civilFromDays ((e + (env.zone e).2) / 86400)).2.2,
    (e + (env.zone e).2) % 86400 / 3600, (e + (env.zone e).2) % 86400 % 3600 / 60,
    (e + (env.zone e).2) % 86400 % 60,
    ⟨hy1, hy2⟩, ⟨hm1, hm2⟩, ⟨hd1, hd2⟩, by omega, by omega, by omega, ?_, ?_, ?_⟩
  · simp only [convertEpochToLocal, hx, enter, outWrite, finish]
    rw [fmtDateTimeZone_digits _ (by simp only [hc]; exact ⟨hy1, hy2⟩)
      (by simp only [hc]; omega) (by simp only [hc]; omega) (by simp only [hc]; omega)
      (by simp only [hc]; omega) (by simp only [hc]; omega) (by simp only [hc]; exact hz), hc]
  · simp only [convertEpochToLocal, hx, enter, outWrite, finish]
  · unfold gregorianEpoch
    rw [gregorianDay_eq _ _ _ hm1 hm2, daysFromCivil_civilFromDays]
    omega

/-- Witness for C9: the input `-1` in the sample zone. -/
theorem epoch_roundtrip_witness :
    ∃ y m d h mi s : Int,
      (convertEpochToLocal sampleEnv "-1").stdout = [timestampLine y m d h mi s "EST"] ∧
      gregorianEpoch y m d h mi s (-18000) = -1 := by
  obtain ⟨y, m, d, h, mi, s, -, -, -, -, -, -, h1, -, h2⟩ :=
    epoch_roundtrip sampleEnv "-1" (-1) rfl (by decide) (by decide) (by decide)
  exact ⟨y, m, d, h, mi, s, h1, h2⟩

/-- Two runs of `convertEpochToLocal` in the sample zone: the epoch itself and
the second before it. -/
theorem epoch_roundtrip_examples :
    (convertEpochToLocal sampleEnv "0").stdout = ["1969-12-31 19:00:00 EST\n"] ∧
    (convertEpochToLocal sampleEnv "-1").stdout = ["1969-12-31 18:59:59 EST\n"] ∧
    timestampLine 1969 12 31 18 59 59 "EST" = "1969-12-31 18:59:59 EST\n" ∧
    gregorianEpoch 1969 12 31 18 59 59 (-18000) = -1 ∧
    gregorianEpoch 1970 1 1 0 0 0 0 = 0 ∧
    gregorianEpoch 2023 11 14 22 13 20 0 = 1700000000 ∧
    gregorianEpoch 2000 2 29 12 0 0 0 = 951825600 := by
  decide!

/-! ## Theorems: further runs -/

/-- A negative epoch given as the only argument is read by the flag parser as
an undefined flag and never reaches `convertEpochToLocal`; after `--` it does. -/
theorem negative_epoch_argument :
    (main sampleEnv ["-86400"]).exitCode = 1 ∧
    (main sampleEnv ["-86400"]).calls = [Call.usage] ∧
    (main sampleEnv ["-86400"]).stdout = [] ∧
    (main sampleEnv ["--", "-86400"]).calls = [Call.convertEpochToLocal "-86400"] ∧
    (main sampleEnv ["--", "-86400"]).stdout = ["1969-12-30 19:00:00 EST\n"] ∧
    (main sampleEnv ["--", "-86400"]).exitCode = 0 := by
  decide!

/-- The sum `utcSeconds + 3600` wraps around in `int64` for the last 3600
epoch seconds an `int64` can hold, and the seconds since midnight come out
negative there too. -/
theorem beat_negative_on_overflow :
    wrapInt64 (2 ^ 63 - 1 + 3600) = -(2 ^ 63) + 3599 ∧
    secondsSinceMidnightBMT (2 ^ 63 - 1) < 0 ∧
    secondsSinceMidnightBMT (2 ^ 63 - 3601) = (2 ^ 63 - 3601 + 3600) % 86400 := by
  decide!

end Utime
